import Mathlib

/-!
Verification of the monarch trailcam temperature pipeline
(`python-tools/extract-temp`): the correction-merge layer
(`manual_review.load_and_prepare_data`, `clean_temperature_data.load_and_merge_data`),
the sliding-window anomaly detector and issue classifier
(`comprehensive_data_issues_detector.py`, `sliding_window_anomaly_detection.py`),
and the filename codec and OCR pattern ladder (`extract_temp.py`).

Numeric columns (temperature, confidence, z-scores) are modelled with `ℚ`;
tables are lists of records in row order.  The robust Huber regression of the
anomaly model is floating-point and iterative, so it is kept abstract: the
detector is parametrised by an arbitrary `fit` function, and every theorem
about the detector is universally quantified over it.
-/

/-- One row of the temperature table: the columns written by
`extract_temp.process_directory` (filename, deployment_id, timestamp,
temperature, confidence, extraction_status).  The timestamp is the 14-digit
numeric acquisition time, read as an integer. -/
structure TempRecord where
  filename : String
  deployment_id : String
  timestamp : Nat
  temperature : Option ℚ
  confidence : ℚ
  extraction_status : String
  deriving DecidableEq, Inhabited, Repr

/-- Insert a record into a list sorted by ascending confidence, before the
first entry of greater-or-equal confidence (the insertion step of a stable
ascending sort, modelling `DataFrame.sort_values('confidence')`). -/
def ordInsert (r : TempRecord) : List TempRecord → List TempRecord
  | [] => [r]
  | y :: ys => if r.confidence ≤ y.confidence then r :: y :: ys else y :: ordInsert r ys

/-- One ascending-by-confidence reordering of a table, computed by a stable
insertion sort.  `df_combined.sort_values('confidence', ascending=True)` in
`manual_review.load_and_prepare_data` uses pandas' default unstable quicksort,
so the program guarantees only that its output is SOME ascending reordering of
the input: the relative order of rows with equal confidence is unspecified
(the source comment "the last entry is kept, which will be the manual one if
present" relies on a stability the chosen sort kind does not provide).
Theorems about this merge therefore quantify over every `ConfSorted`
permutation of the concatenated input; `sortByConf` supplies one concrete such
outcome. -/
def sortByConf : List TempRecord → List TempRecord
  | [] => []
  | r :: rs => ordInsert r (sortByConf rs)

/-- `drop_duplicates(subset='filename', keep='last')`: a row survives exactly
when no later row carries the same filename; surviving rows keep their order. -/
def dropDupKeepLast : List TempRecord → List TempRecord
  | [] => []
  | r :: rs =>
    if rs.any (fun s => s.filename == r.filename) then dropDupKeepLast rs
    else r :: dropDupKeepLast rs

/-- The correction merge of `manual_review.load_and_prepare_data` (lines 28-34):
concatenate the base table with every override table, sort by ascending
confidence, and drop duplicate filenames keeping the last row.  The stable
`sortByConf` stands in for one possible outcome of the unstable
`sort_values`; sort-outcome-independent theorems quantify over every
`ConfSorted` permutation instead of using this instance. -/
def merge_tables (base : List TempRecord) (overrides : List (List TempRecord)) :
    List TempRecord :=
  dropDupKeepLast (sortByConf (base ++ overrides.flatten))

/-- The per-filename winner of the merge under the stable instance
`sortByConf`: the candidate of maximal confidence, and among candidates of
equal confidence the one occurring later in the concatenated table (the tied
case is determined only by the stable model, not by the program's unstable
sort).  `pick f (r :: rs)` prefers the winner of `rs` unless `r` has strictly
larger confidence. -/
def pick (f : String) : List TempRecord → Option TempRecord
  | [] => none
  | r :: rs =>
    match pick f rs with
    | none => if r.filename = f then some r else none
    | some b => if r.filename = f ∧ b.confidence < r.confidence then some r else some b

theorem mem_ordInsert {x r : TempRecord} {l : List TempRecord} :
    x ∈ ordInsert r l ↔ x = r ∨ x ∈ l := by
  induction l with
  | nil => simp [ordInsert]
  | cons y ys ih =>
    by_cases h : r.confidence ≤ y.confidence
    · simp [ordInsert, h]
    · simp only [ordInsert, if_neg h, List.mem_cons, ih]
      tauto

theorem mem_sortByConf {x : TempRecord} {l : List TempRecord} :
    x ∈ sortByConf l ↔ x ∈ l := by
  induction l with
  | nil => simp [sortByConf]
  | cons r rs ih => simp [sortByConf, mem_ordInsert, ih]

/-- A table is confidence-sorted when consecutive confidences ascend. -/
def ConfSorted (l : List TempRecord) : Prop :=
  l.Pairwise (fun a b => a.confidence ≤ b.confidence)

theorem confSorted_ordInsert {r : TempRecord} {l : List TempRecord}
    (h : ConfSorted l) : ConfSorted (ordInsert r l) := by
  induction l with
  | nil => simp [ordInsert, ConfSorted]
  | cons y ys ih =>
    rcases h with _ | ⟨hy, hys⟩
    by_cases hc : r.confidence ≤ y.confidence
    · rw [ordInsert, if_pos hc]
      refine List.Pairwise.cons ?_ (List.Pairwise.cons hy hys)
      intro z hz
      rcases List.mem_cons.mp hz with rfl | hz
      · exact hc
      · exact le_trans hc (hy z hz)
    · rw [ordInsert, if_neg hc]
      refine List.Pairwise.cons ?_ (ih hys)
      intro z hz
      rcases mem_ordInsert.mp hz with rfl | hz
      · exact le_of_not_le hc
      · exact hy z hz

theorem confSorted_sortByConf (l : List TempRecord) : ConfSorted (sortByConf l) := by
  induction l with
  | nil => exact List.Pairwise.nil
  | cons r rs ih => exact confSorted_ordInsert ih

/-- `r` is beaten (or tied, which suffices since later rows win ties) by some
record of the same filename in `l`. -/
def Beats (r : TempRecord) (l : List TempRecord) : Prop :=
  ∃ y ∈ l, y.filename = r.filename ∧ r.confidence ≤ y.confidence

theorem beats_any {r : TempRecord} {l : List TempRecord} :
    (l.any fun y =>
      y.filename == r.filename && decide (r.confidence ≤ y.confidence)) = true ↔
      Beats r l := by
  simp [Beats, List.any_eq_true]

theorem mem_dropDupKeepLast {x : TempRecord} {l : List TempRecord}
    (h : x ∈ dropDupKeepLast l) : x ∈ l := by
  induction l with
  | nil => rw [dropDupKeepLast] at h; cases h
  | cons r rs ih =>
    rw [dropDupKeepLast] at h
    by_cases hc : (rs.any fun s => s.filename == r.filename) = true
    · rw [if_pos hc] at h
      exact List.mem_cons_of_mem _ (ih h)
    · rw [if_neg hc] at h
      rcases List.mem_cons.mp h with rfl | h
      · exact List.mem_cons_self _ _
      · exact List.mem_cons_of_mem _ (ih h)

theorem exists_max_dropDupKeepLast {l : List TempRecord} (hs : ConfSorted l) :
    ∀ y ∈ l, ∃ m ∈ dropDupKeepLast l,
      m.filename = y.filename ∧ y.confidence ≤ m.confidence := by
  induction l with
  | nil => intro y hy; cases hy
  | cons z zs ih =>
    rcases hs with _ | ⟨hz, hzs⟩
    intro y hy
    rw [dropDupKeepLast]
    by_cases hc : (zs.any fun s => s.filename == z.filename) = true
    · rw [if_pos hc]
      rcases List.mem_cons.mp hy with rfl | hy
      · rcases List.any_eq_true.mp hc with ⟨w, hw, hweq⟩
        rcases ih hzs w hw with ⟨m, hm, hmf, hmc⟩
        refine ⟨m, hm, ?_, le_trans (hz w hw) hmc⟩
        rw [hmf]
        exact beq_iff_eq.mp hweq
      · exact ih hzs y hy
    · rw [if_neg hc]
      rcases List.mem_cons.mp hy with rfl | hy
      · exact ⟨y, List.mem_cons_self _ _, rfl, le_refl _⟩
      · rcases ih hzs y hy with ⟨m, hm, hmf, hmc⟩
        exact ⟨m, List.mem_cons_of_mem _ hm, hmf, hmc⟩

theorem beats_dropDupKeepLast {r : TempRecord} {l : List TempRecord}
    (hs : ConfSorted l) : Beats r (dropDupKeepLast l) ↔ Beats r l := by
  constructor
  · rintro ⟨y, hy, hf, hcle⟩
    exact ⟨y, mem_dropDupKeepLast hy, hf, hcle⟩
  · rintro ⟨y, hy, hf, hcle⟩
    rcases exists_max_dropDupKeepLast hs y hy with ⟨m, hm, hmf, hmc⟩
    exact ⟨m, hm, hmf.trans hf, le_trans hcle hmc⟩

theorem ordInsert_eq_cons {r : TempRecord} {l : List TempRecord}
    (h : ∀ z ∈ l, r.confidence ≤ z.confidence) : ordInsert r l = r :: l := by
  cases l with
  | nil => rfl
  | cons y ys => rw [ordInsert, if_pos (h y (List.mem_cons_self _ _))]

theorem dropDup_ordInsert_beats {r : TempRecord} {S : List TempRecord}
    (hs : ConfSorted S) (h : Beats r S) :
    dropDupKeepLast (ordInsert r S) = dropDupKeepLast S := by
  induction S with
  | nil => rcases h with ⟨y, hy, _⟩; cases hy
  | cons y ys ih =>
    rcases hs with _ | ⟨hy, hys⟩
    by_cases hc : r.confidence ≤ y.confidence
    · rw [ordInsert, if_pos hc, dropDupKeepLast, if_pos]
      rcases h with ⟨z, hz, hzf, hzc⟩
      exact List.any_eq_true.mpr ⟨z, hz, by simp [hzf]⟩
    · rw [ordInsert, if_neg hc]
      have hbys : Beats r ys := by
        rcases h with ⟨z, hz, hzf, hzc⟩
        rcases List.mem_cons.mp hz with rfl | hz
        · exact absurd hzc hc
        · exact ⟨z, hz, hzf, hzc⟩
      have hIH := ih hys hbys
      have hany : ((ordInsert r ys).any fun s => s.filename == y.filename) =
          (ys.any fun s => s.filename == y.filename) := by
        apply Bool.eq_iff_iff.mpr
        simp only [List.any_eq_true]
        constructor
        · rintro ⟨s, hsmem, hseq⟩
          rcases mem_ordInsert.mp hsmem with rfl | hsmem
          · rcases hbys with ⟨z, hz, hzf, _⟩
            refine ⟨z, hz, ?_⟩
            simp only [beq_iff_eq] at hseq ⊢
            rw [hzf, hseq]
          · exact ⟨s, hsmem, hseq⟩
        · rintro ⟨s, hsmem, hseq⟩
          exact ⟨s, mem_ordInsert.mpr (Or.inr hsmem), hseq⟩
      rw [dropDupKeepLast, dropDupKeepLast, hany]
      by_cases hyy : (ys.any fun s => s.filename == y.filename) = true
      · rw [if_pos hyy, if_pos hyy, hIH]
      · rw [if_neg hyy, if_neg hyy, hIH]

theorem dropDup_ordInsert_wins {r : TempRecord} {S : List TempRecord}
    (hs : ConfSorted S) (h : ¬ Beats r S) :
    dropDupKeepLast (ordInsert r S) =
      ordInsert r ((dropDupKeepLast S).filter fun y => !(y.filename == r.filename)) := by
  induction S with
  | nil => rfl
  | cons y ys ih =>
    rcases hs with _ | ⟨hy, hys⟩
    by_cases hc : r.confidence ≤ y.confidence
    · rw [ordInsert, if_pos hc]
      have hconf : ∀ z ∈ y :: ys, r.confidence ≤ z.confidence := by
        intro z hz
        rcases List.mem_cons.mp hz with rfl | hz
        · exact hc
        · exact le_trans hc (hy z hz)
      have hnone : ((y :: ys).any fun s => s.filename == r.filename) = false := by
        rcases Bool.eq_false_or_eq_true ((y :: ys).any fun s => s.filename == r.filename)
          with ht | hf
        · exfalso
          rcases List.any_eq_true.mp ht with ⟨z, hz, hzeq⟩
          exact h ⟨z, hz, beq_iff_eq.mp hzeq, hconf z hz⟩
        · exact hf
      rw [dropDupKeepLast, if_neg (by rw [hnone]; exact Bool.false_ne_true)]
      have hfilter : ((dropDupKeepLast (y :: ys)).filter
          fun s => !(s.filename == r.filename)) = dropDupKeepLast (y :: ys) := by
        apply List.filter_eq_self.mpr
        intro z hz
        have hzmem := mem_dropDupKeepLast hz
        rcases Bool.eq_false_or_eq_true (z.filename == r.filename) with ht | hf
        · exfalso
          have : ((y :: ys).any fun s => s.filename == r.filename) = true :=
            List.any_eq_true.mpr ⟨z, hzmem, ht⟩
          rw [hnone] at this; cases this
        · rw [hf]; rfl
      rw [hfilter]
      exact (ordInsert_eq_cons fun z hz =>
        hconf z (mem_dropDupKeepLast hz)).symm
    · rw [ordInsert, if_neg hc]
      have hbys : ¬ Beats r ys := by
        rintro ⟨z, hz, hzf, hzc⟩
        exact h ⟨z, List.mem_cons_of_mem _ hz, hzf, hzc⟩
      have hIH := ih hys hbys
      by_cases hryfn : r.filename = y.filename
      · have hcond : ((ordInsert r ys).any fun s => s.filename == y.filename) = true :=
          List.any_eq_true.mpr ⟨r, mem_ordInsert.mpr (Or.inl rfl), beq_iff_eq.mpr hryfn⟩
      -- left side reduces to the inserted tail; on the right `y` is filtered out
      -- whether or not it survives the duplicate drop
        rw [dropDupKeepLast, if_pos hcond, hIH, dropDupKeepLast]
        by_cases hyy : (ys.any fun s => s.filename == y.filename) = true
        · rw [if_pos hyy]
        · rw [if_neg hyy, List.filter_cons]
          have : (!(y.filename == r.filename)) = false := by
            simp [hryfn.symm]
          rw [this]
          simp only [Bool.false_eq_true, if_false]
      · have hcond : ((ordInsert r ys).any fun s => s.filename == y.filename) =
            (ys.any fun s => s.filename == y.filename) := by
          apply Bool.eq_iff_iff.mpr
          simp only [List.any_eq_true]
          constructor
          · rintro ⟨s, hsmem, hseq⟩
            rcases mem_ordInsert.mp hsmem with rfl | hsmem
            · exact absurd (beq_iff_eq.mp hseq) hryfn
            · exact ⟨s, hsmem, hseq⟩
          · rintro ⟨s, hsmem, hseq⟩
            exact ⟨s, mem_ordInsert.mpr (Or.inr hsmem), hseq⟩
        rw [dropDupKeepLast, hcond, dropDupKeepLast]
        by_cases hyy : (ys.any fun s => s.filename == y.filename) = true
        · rw [if_pos hyy, if_pos hyy, hIH]
        · rw [if_neg hyy, if_neg hyy, hIH, List.filter_cons]
          have hkeep : (!(y.filename == r.filename)) = true := by
            simp only [Bool.not_eq_true', beq_eq_false_iff_ne]
            exact fun hyr => hryfn hyr.symm
          rw [hkeep]
          simp only [if_true]
          rw [ordInsert, if_neg hc]

theorem beats_append {r : TempRecord} {l₁ l₂ : List TempRecord} :
    Beats r (l₁ ++ l₂) ↔ Beats r l₁ ∨ Beats r l₂ := by
  simp only [Beats, List.mem_append]
  constructor
  · rintro ⟨y, hy | hy, hf, hc⟩
    · exact Or.inl ⟨y, hy, hf, hc⟩
    · exact Or.inr ⟨y, hy, hf, hc⟩
  · rintro (⟨y, hy, hf, hc⟩ | ⟨y, hy, hf, hc⟩)
    · exact ⟨y, Or.inl hy, hf, hc⟩
    · exact ⟨y, Or.inr hy, hf, hc⟩

theorem beats_sortByConf {r : TempRecord} {l : List TempRecord} :
    Beats r (sortByConf l) ↔ Beats r l := by
  simp only [Beats, mem_sortByConf]

theorem mergeCore_append_absorb {X : List TempRecord} :
    ∀ t : List TempRecord, (∀ r ∈ t, Beats r X) →
      dropDupKeepLast (sortByConf (t ++ X)) = dropDupKeepLast (sortByConf X) := by
  intro t
  induction t with
  | nil => intro _; rfl
  | cons a t ih =>
    intro hall
    have hb : Beats a (sortByConf (t ++ X)) := by
      rw [beats_sortByConf, beats_append]
      exact Or.inr (hall a (List.mem_cons_self _ _))
    calc dropDupKeepLast (sortByConf ((a :: t) ++ X))
        = dropDupKeepLast (ordInsert a (sortByConf (t ++ X))) := rfl
      _ = dropDupKeepLast (sortByConf (t ++ X)) :=
          dropDup_ordInsert_beats (confSorted_sortByConf _) hb
      _ = dropDupKeepLast (sortByConf X) :=
          ih fun r hr => hall r (List.mem_cons_of_mem _ hr)

theorem mergeCore_congr {X Y : List TempRecord}
    (hXY : dropDupKeepLast (sortByConf X) = dropDupKeepLast (sortByConf Y)) :
    ∀ l : List TempRecord,
      dropDupKeepLast (sortByConf (l ++ X)) = dropDupKeepLast (sortByConf (l ++ Y)) := by
  intro l
  induction l with
  | nil => exact hXY
  | cons a l ih =>
    have hbeq : Beats a (l ++ X) ↔ Beats a (l ++ Y) := by
      rw [beats_append, beats_append]
      have h1 : Beats a X ↔ Beats a Y := by
        rw [← beats_sortByConf (l := X), ← beats_sortByConf (l := Y)]
        rw [← beats_dropDupKeepLast (confSorted_sortByConf X),
          ← beats_dropDupKeepLast (confSorted_sortByConf Y), hXY]
      rw [h1]
    by_cases hb : Beats a (l ++ X)
    · calc dropDupKeepLast (sortByConf ((a :: l) ++ X))
          = dropDupKeepLast (ordInsert a (sortByConf (l ++ X))) := rfl
        _ = dropDupKeepLast (sortByConf (l ++ X)) :=
            dropDup_ordInsert_beats (confSorted_sortByConf _) (beats_sortByConf.mpr hb)
        _ = dropDupKeepLast (sortByConf (l ++ Y)) := ih
        _ = dropDupKeepLast (ordInsert a (sortByConf (l ++ Y))) :=
            (dropDup_ordInsert_beats (confSorted_sortByConf _)
              (beats_sortByConf.mpr (hbeq.mp hb))).symm
        _ = dropDupKeepLast (sortByConf ((a :: l) ++ Y)) := rfl
    · calc dropDupKeepLast (sortByConf ((a :: l) ++ X))
          = dropDupKeepLast (ordInsert a (sortByConf (l ++ X))) := rfl
        _ = ordInsert a ((dropDupKeepLast (sortByConf (l ++ X))).filter
              fun y => !(y.filename == a.filename)) :=
            dropDup_ordInsert_wins (confSorted_sortByConf _)
              (fun hx => hb (beats_sortByConf.mp hx))
        _ = ordInsert a ((dropDupKeepLast (sortByConf (l ++ Y))).filter
              fun y => !(y.filename == a.filename)) := by rw [ih]
        _ = dropDupKeepLast (ordInsert a (sortByConf (l ++ Y))) :=
            (dropDup_ordInsert_wins (confSorted_sortByConf _)
              (fun hy => hb (hbeq.mpr (beats_sortByConf.mp hy)))).symm
        _ = dropDupKeepLast (sortByConf ((a :: l) ++ Y)) := rfl

theorem pick_eq_none_iff {f : String} {l : List TempRecord} :
    pick f l = none ↔ ∀ y ∈ l, y.filename ≠ f := by
  induction l with
  | nil => simp [pick]
  | cons r rs ih =>
    cases hp : pick f rs with
    | none =>
      have hrs : ∀ y ∈ rs, y.filename ≠ f := ih.mp hp
      simp only [pick, hp]
      by_cases hf : r.filename = f
      · rw [if_pos hf]
        constructor
        · intro hcontra; cases hcontra
        · intro hall; exact absurd hf (hall r (List.mem_cons_self _ _))
      · rw [if_neg hf]
        constructor
        · intro _ y hy
          rcases List.mem_cons.mp hy with rfl | hy
          · exact hf
          · exact hrs y hy
        · intro _; rfl
    | some c =>
      simp only [pick, hp]
      constructor
      · intro hcontra
        by_cases hcond : r.filename = f ∧ c.confidence < r.confidence
        · rw [if_pos hcond] at hcontra; cases hcontra
        · rw [if_neg hcond] at hcontra; cases hcontra
      · intro hall
        have hnone : pick f rs = none :=
          ih.mpr fun y hy => hall y (List.mem_cons_of_mem _ hy)
        rw [hp] at hnone; cases hnone

theorem pick_mem {f : String} {l : List TempRecord} {b : TempRecord}
    (h : pick f l = some b) : b ∈ l ∧ b.filename = f := by
  induction l with
  | nil => cases h
  | cons r rs ih =>
    cases hp : pick f rs with
    | none =>
      simp only [pick, hp] at h
      by_cases hf : r.filename = f
      · rw [if_pos hf] at h
        cases h
        exact ⟨List.mem_cons_self _ _, hf⟩
      · rw [if_neg hf] at h; cases h
    | some c =>
      simp only [pick, hp] at h
      by_cases hcond : r.filename = f ∧ c.confidence < r.confidence
      · rw [if_pos hcond] at h
        cases h
        exact ⟨List.mem_cons_self _ _, hcond.1⟩
      · rw [if_neg hcond] at h
        cases h
        rcases ih hp with ⟨hc1, hc2⟩
        exact ⟨List.mem_cons_of_mem _ hc1, hc2⟩

theorem pick_max {f : String} (l : List TempRecord) :
    ∀ z ∈ l, z.filename = f →
      ∃ b, pick f l = some b ∧ z.confidence ≤ b.confidence := by
  induction l with
  | nil => intro z hz; cases hz
  | cons r rs ih =>
    intro z hz hzf
    rcases List.mem_cons.mp hz with rfl | hz
    · cases hp : pick f rs with
      | none => exact ⟨z, by simp only [pick, hp]; rw [if_pos hzf], le_refl _⟩
      | some c =>
        by_cases hcond : z.filename = f ∧ c.confidence < z.confidence
        · exact ⟨z, by simp only [pick, hp]; rw [if_pos hcond], le_refl _⟩
        · refine ⟨c, by simp only [pick, hp]; rw [if_neg hcond], ?_⟩
          rcases not_and_or.mp hcond with hcontra | hle
          · exact absurd hzf hcontra
          · exact le_of_not_lt hle
    · rcases ih z hz hzf with ⟨b, hpb, hble⟩
      by_cases hcond : r.filename = f ∧ b.confidence < r.confidence
      · exact ⟨r, by simp only [pick, hpb]; rw [if_pos hcond],
          le_trans hble (le_of_lt hcond.2)⟩
      · exact ⟨b, by simp only [pick, hpb]; rw [if_neg hcond], hble⟩

theorem getLast?_cons_of_ne_nil {α : Type} {a : α} {L : List α} (h : L ≠ []) :
    (a :: L).getLast? = L.getLast? := by
  cases L with
  | nil => exact absurd rfl h
  | cons b t => exact List.getLast?_cons_cons ..

theorem pick_getLast_ties {f : String} {l : List TempRecord} {b : TempRecord}
    (h : pick f l = some b) :
    (l.filter fun y =>
      decide (y.filename = f) && decide (b.confidence ≤ y.confidence)).getLast? = some b := by
  induction l with
  | nil => cases h
  | cons r rs ih =>
    cases hp : pick f rs with
    | none =>
      simp only [pick, hp] at h
      by_cases hf : r.filename = f
      · rw [if_pos hf] at h
        injection h with h
        subst h
        have hnil : (rs.filter fun y =>
            decide (y.filename = f) && decide (r.confidence ≤ y.confidence)) = [] := by
          apply List.filter_eq_nil_iff.mpr
          intro y hy
          simp only [Bool.and_eq_true, decide_eq_true_eq, not_and]
          intro hyf
          exact absurd hyf (pick_eq_none_iff.mp hp y hy)
        rw [List.filter_cons]
        have hpr : (decide (r.filename = f) && decide (r.confidence ≤ r.confidence)) = true := by
          simp [hf]
        rw [hpr, if_pos rfl, hnil]
        rfl
      · rw [if_neg hf] at h; cases h
    | some c =>
      simp only [pick, hp] at h
      by_cases hcond : r.filename = f ∧ c.confidence < r.confidence
      · rw [if_pos hcond] at h
        injection h with h
        subst h
        have hnil : (rs.filter fun y =>
            decide (y.filename = f) && decide (r.confidence ≤ y.confidence)) = [] := by
          apply List.filter_eq_nil_iff.mpr
          intro y hy
          simp only [Bool.and_eq_true, decide_eq_true_eq, not_and]
          intro hyf hyc
          rcases pick_max rs y hy hyf with ⟨b', hpb', hble⟩
          rw [hp] at hpb'
          cases hpb'
          exact absurd (le_trans hyc hble) (not_le_of_lt hcond.2)
        rw [List.filter_cons]
        have hpr : (decide (r.filename = f) && decide (r.confidence ≤ r.confidence)) = true := by
          simp [hcond.1]
        rw [hpr, if_pos rfl, hnil]
        rfl
      · rw [if_neg hcond] at h
        injection h with h
        subst h
        have hih := ih hp
        rw [List.filter_cons]
        cases hpr : (decide (r.filename = f) && decide (c.confidence ≤ r.confidence)) with
        | true =>
          rw [if_pos rfl]
          have hne : (rs.filter fun y =>
              decide (y.filename = f) && decide (c.confidence ≤ y.confidence)) ≠ [] := by
            intro hnil; rw [hnil] at hih; cases hih
          rw [getLast?_cons_of_ne_nil hne]
          exact hih
        | false =>
          rw [if_neg Bool.false_ne_true]
          exact hih

theorem filter_ordInsert_skip {p : TempRecord → Bool} {r : TempRecord}
    (hpr : p r = false) : ∀ L : List TempRecord, (ordInsert r L).filter p = L.filter p := by
  intro L
  induction L with
  | nil => simp [ordInsert, List.filter_cons, hpr]
  | cons y ys ih =>
    by_cases hc : r.confidence ≤ y.confidence
    · rw [ordInsert, if_pos hc, List.filter_cons, hpr, if_neg Bool.false_ne_true]
    · rw [ordInsert, if_neg hc, List.filter_cons, List.filter_cons, ih]

theorem filter_ordInsert_single {p : TempRecord → Bool} {r : TempRecord}
    (hpr : p r = true) :
    ∀ L : List TempRecord, (∀ z ∈ L, p z = false) → (ordInsert r L).filter p = [r] := by
  intro L
  induction L with
  | nil => intro _; simp [ordInsert, List.filter_cons, hpr]
  | cons y ys ih =>
    intro hall
    have hy : p y = false := hall y (List.mem_cons_self _ _)
    have hys : ∀ z ∈ ys, p z = false := fun z hz => hall z (List.mem_cons_of_mem _ hz)
    by_cases hc : r.confidence ≤ y.confidence
    · rw [ordInsert, if_pos hc, List.filter_cons, hpr, if_pos rfl, List.filter_cons, hy,
        if_neg Bool.false_ne_true, List.filter_eq_nil_iff.mpr ?_]
      intro z hz
      rw [hys z hz]
      exact Bool.false_ne_true
    · rw [ordInsert, if_neg hc, List.filter_cons, hy, if_neg Bool.false_ne_true, ih hys]

theorem mergeCore_filter_eq_pick (f : String) :
    ∀ l : List TempRecord,
      (dropDupKeepLast (sortByConf l)).filter (fun r => r.filename == f) =
        (pick f l).toList := by
  intro l
  induction l with
  | nil => rfl
  | cons r rs ih =>
    rw [sortByConf]
    by_cases hb : Beats r rs
    · rw [dropDup_ordInsert_beats (confSorted_sortByConf rs) (beats_sortByConf.mpr hb), ih]
      have hpeq : pick f (r :: rs) = pick f rs := by
        by_cases hf : r.filename = f
        · rcases hb with ⟨z, hz, hzf, hzc⟩
          obtain ⟨b, hpb, hble⟩ := pick_max rs z hz (by rw [hzf, hf])
          simp only [pick, hpb]
          rw [if_neg]
          rintro ⟨_, hlt⟩
          exact absurd (le_trans hzc hble) (not_le_of_lt hlt)
        · cases hp : pick f rs with
          | none => simp only [pick, hp]; rw [if_neg hf]
          | some c => simp only [pick, hp]; rw [if_neg (fun hc => hf hc.1)]
      rw [hpeq]
    · rw [dropDup_ordInsert_wins (confSorted_sortByConf rs)
        (fun hx => hb (beats_sortByConf.mp hx))]
      by_cases hf : r.filename = f
      · have hsingle : (ordInsert r ((dropDupKeepLast (sortByConf rs)).filter
            fun y => !(y.filename == r.filename))).filter (fun y => y.filename == f) = [r] := by
          apply filter_ordInsert_single
          · simp [hf]
          · intro z hz
            have hpass := (List.mem_filter.mp hz).2
            simp only [Bool.not_eq_true', beq_eq_false_iff_ne] at hpass
            rw [beq_eq_false_iff_ne]
            intro hzf
            exact hpass (hzf.trans hf.symm)
        rw [hsingle]
        have hone : pick f (r :: rs) = some r := by
          cases hp : pick f rs with
          | none => simp only [pick, hp]; rw [if_pos hf]
          | some c =>
            have hcmem := pick_mem hp
            have hclt : c.confidence < r.confidence := by
              by_contra hge
              exact hb ⟨c, hcmem.1, by rw [hcmem.2, hf], le_of_not_lt hge⟩
            simp only [pick, hp]
            rw [if_pos ⟨hf, hclt⟩]
        rw [hone]
        rfl
      · rw [filter_ordInsert_skip (by simp [hf]) _, List.filter_filter]
        have hcongr : ∀ a ∈ dropDupKeepLast (sortByConf rs),
            ((a.filename == f) && !(a.filename == r.filename)) = (a.filename == f) := by
          intro a _
          cases haf : (a.filename == f) with
          | false => rfl
          | true =>
            have hne : (a.filename == r.filename) = false := by
              rw [beq_eq_false_iff_ne]
              intro hcontra
              exact hf (hcontra.symm.trans (beq_iff_eq.mp haf))
            rw [hne]
            rfl
        rw [List.filter_congr hcongr, ih]
        have hpeq : pick f (r :: rs) = pick f rs := by
          cases hp : pick f rs with
          | none => simp only [pick, hp]; rw [if_neg hf]
          | some c => simp only [pick, hp]; rw [if_neg (fun hc => hf hc.1)]
        rw [hpeq]

/-- The fields a correction row overwrites in `clean_temperature_data`:
`df_merged.loc[mask, 'temperature'/'confidence'/'extraction_status'] = ...`. -/
def setFields (r c : TempRecord) : TempRecord :=
  { r with temperature := c.temperature, confidence := c.confidence,
           extraction_status := c.extraction_status }

/-- Apply one correction row to one table row: overwrite when filenames match. -/
def updRow (r c : TempRecord) : TempRecord :=
  if r.filename = c.filename then setFields r c else r

/-- Apply one correction row to the whole table
(`df_merged.loc[df_merged.filename == row.filename, ...] = ...`). -/
def apply_correction_row (df : List TempRecord) (c : TempRecord) : List TempRecord :=
  df.map fun r => updRow r c

/-- The correction merge of `clean_temperature_data.load_and_merge_data`
(lines 29-51): start from the original table and apply every row of every
correction file in order, overwriting the temperature, confidence and
extraction_status of each matching row in place.  A correction whose filename
is absent from the base only produces a warning and is dropped. -/
def load_and_merge_data (base : List TempRecord)
    (corrections : List (List TempRecord)) : List TempRecord :=
  corrections.foldl (fun df corr => corr.foldl apply_correction_row df) base

/-- The last correction row of the file whose filename equals `fn`. -/
def lastMatch (fn : String) : List TempRecord → Option TempRecord
  | [] => none
  | c :: cs =>
    match lastMatch fn cs with
    | some c' => some c'
    | none => if c.filename = fn then some c else none

theorem updRow_filename {r c : TempRecord} : (updRow r c).filename = r.filename := by
  unfold updRow
  split
  · rfl
  · rfl

theorem foldl_updRow_filename (corr : List TempRecord) :
    ∀ r : TempRecord, (corr.foldl updRow r).filename = r.filename := by
  induction corr with
  | nil => intro r; rfl
  | cons c cs ih =>
    intro r
    rw [List.foldl_cons, ih (updRow r c), updRow_filename]

theorem setFields_updRow {r c c' : TempRecord} :
    setFields (updRow r c) c' = setFields r c' := by
  unfold updRow
  split
  · rfl
  · rfl

theorem foldl_updRow_char (corr : List TempRecord) :
    ∀ r : TempRecord, corr.foldl updRow r =
      match lastMatch r.filename corr with
      | none => r
      | some c => setFields r c := by
  induction corr with
  | nil => intro r; rfl
  | cons c cs ih =>
    intro r
    rw [List.foldl_cons, ih (updRow r c), updRow_filename]
    cases hlm : lastMatch r.filename cs with
    | some c' =>
      simp only [lastMatch, hlm]
      exact setFields_updRow
    | none =>
      simp only [lastMatch, hlm]
      by_cases hcf : c.filename = r.filename
      · rw [if_pos hcf]
        unfold updRow
        rw [if_pos hcf.symm]
      · rw [if_neg hcf]
        unfold updRow
        rw [if_neg fun hcontra => hcf hcontra.symm]

theorem foldl_updRow_idem (corr : List TempRecord) (r : TempRecord) :
    corr.foldl updRow (corr.foldl updRow r) = corr.foldl updRow r := by
  have h1 := foldl_updRow_char corr r
  have h2 := foldl_updRow_char corr (corr.foldl updRow r)
  rw [foldl_updRow_filename corr r] at h2
  rw [h2, h1]
  cases hlm : lastMatch r.filename corr with
  | none => rfl
  | some c => rfl

theorem foldl_apply_correction_map (corr : List TempRecord) :
    ∀ df : List TempRecord,
      corr.foldl apply_correction_row df = df.map fun r => corr.foldl updRow r := by
  induction corr with
  | nil =>
    intro df
    simp only [List.foldl_nil]
    exact (List.map_id' df).symm
  | cons c cs ih =>
    intro df
    rw [List.foldl_cons]
    show cs.foldl apply_correction_row (df.map fun r => updRow r c) = _
    rw [ih, List.map_map]
    rfl

theorem ordInsert_perm (r : TempRecord) (l : List TempRecord) :
    (ordInsert r l).Perm (r :: l) := by
  induction l with
  | nil => exact List.Perm.refl _
  | cons y ys ih =>
    by_cases h : r.confidence ≤ y.confidence
    · rw [ordInsert, if_pos h]
    · rw [ordInsert, if_neg h]
      exact (ih.cons y).trans (List.Perm.swap r y ys)

theorem sortByConf_perm : ∀ l : List TempRecord, (sortByConf l).Perm l
  | [] => List.Perm.refl _
  | r :: rs => (ordInsert_perm r (sortByConf rs)).trans ((sortByConf_perm rs).cons r)

/-- The last record of a given filename in a table (`none` when the filename
does not occur): `drop_duplicates(subset='filename', keep='last')` keeps
exactly this record for each filename, whatever order the sort produced. -/
def lastOf (f : String) : List TempRecord → Option TempRecord
  | [] => none
  | r :: rs =>
    match lastOf f rs with
    | some b => some b
    | none => if r.filename = f then some r else none

theorem lastOf_cons_of_some {f : String} {r : TempRecord} {rs : List TempRecord}
    {c : TempRecord} (h : lastOf f rs = some c) : lastOf f (r :: rs) = some c := by
  show (match lastOf f rs with
        | some b => some b
        | none => if r.filename = f then some r else none) = some c
  rw [h]

theorem lastOf_cons_of_none {f : String} {r : TempRecord} {rs : List TempRecord}
    (h : lastOf f rs = none) :
    lastOf f (r :: rs) = if r.filename = f then some r else none := by
  show (match lastOf f rs with
        | some b => some b
        | none => if r.filename = f then some r else none) = _
  rw [h]

theorem lastOf_mem {f : String} {l : List TempRecord} {b : TempRecord}
    (h : lastOf f l = some b) : b ∈ l ∧ b.filename = f := by
  induction l with
  | nil => cases h
  | cons r rs ih =>
    cases hrs : lastOf f rs with
    | some c =>
      rw [lastOf_cons_of_some hrs] at h
      injection h with h
      subst h
      obtain ⟨hm, hf⟩ := ih hrs
      exact ⟨List.mem_cons_of_mem _ hm, hf⟩
    | none =>
      rw [lastOf_cons_of_none hrs] at h
      by_cases hr : r.filename = f
      · rw [if_pos hr] at h
        injection h with h
        subst h
        exact ⟨List.mem_cons_self _ _, hr⟩
      · rw [if_neg hr] at h
        cases h

theorem lastOf_eq_none {f : String} {l : List TempRecord} :
    lastOf f l = none ↔ ∀ y ∈ l, y.filename ≠ f := by
  induction l with
  | nil => simp [lastOf]
  | cons r rs ih =>
    constructor
    · intro h
      cases hrs : lastOf f rs with
      | some c =>
        rw [lastOf_cons_of_some hrs] at h
        cases h
      | none =>
        rw [lastOf_cons_of_none hrs] at h
        intro y hy
        rcases List.mem_cons.mp hy with rfl | hy
        · intro hr
          rw [if_pos hr] at h
          cases h
        · exact ih.mp hrs y hy
    · intro h
      have hrs : lastOf f rs = none :=
        ih.mpr fun y hy => h y (List.mem_cons_of_mem _ hy)
      rw [lastOf_cons_of_none hrs, if_neg (h r (List.mem_cons_self _ _))]

/-- In an ascending-by-confidence table, the last record of filename `f` has
maximal confidence among the records of filename `f`. -/
theorem lastOf_max {f : String} {l : List TempRecord} {b : TempRecord}
    (hs : ConfSorted l) (h : lastOf f l = some b) :
    ∀ y ∈ l, y.filename = f → y.confidence ≤ b.confidence := by
  induction l with
  | nil => intro y hy; cases hy
  | cons r rs ih =>
    rcases hs with _ | ⟨hr, hrs⟩
    intro y hy hyf
    cases hlast : lastOf f rs with
    | some c =>
      rw [lastOf_cons_of_some hlast] at h
      injection h with h
      subst h
      rcases List.mem_cons.mp hy with rfl | hy
      · exact hr _ (lastOf_mem hlast).1
      · exact ih hrs hlast y hy hyf
    | none =>
      rw [lastOf_cons_of_none hlast] at h
      by_cases hrf : r.filename = f
      · rw [if_pos hrf] at h
        injection h with h
        subst h
        rcases List.mem_cons.mp hy with rfl | hy
        · exact le_refl _
        · exact absurd hyf (lastOf_eq_none.mp hlast y hy)
      · rw [if_neg hrf] at h
        cases h

/-- `drop_duplicates(keep='last')` restricted to one filename keeps exactly
the last record of that filename, on every input order. -/
theorem filter_dropDup_lastOf (f : String) :
    ∀ l : List TempRecord,
      (dropDupKeepLast l).filter (fun r => r.filename == f) = (lastOf f l).toList := by
  intro l
  induction l with
  | nil => rfl
  | cons r rs ih =>
    rw [dropDupKeepLast]
    by_cases hc : (rs.any fun s => s.filename == r.filename) = true
    · rw [if_pos hc, ih]
      cases hlast : lastOf f rs with
      | some c => rw [lastOf_cons_of_some hlast]
      | none =>
        have hrf : r.filename ≠ f := by
          intro hrf
          rcases List.any_eq_true.mp hc with ⟨s, hs, hseq⟩
          exact (lastOf_eq_none.mp hlast) s hs (by rw [beq_iff_eq.mp hseq, hrf])
        rw [lastOf_cons_of_none hlast, if_neg hrf]
    · rw [if_neg hc, List.filter_cons]
      by_cases hrf : r.filename = f
      · rw [if_pos (by simp [hrf]), ih]
        have hnone : lastOf f rs = none := by
          apply lastOf_eq_none.mpr
          intro y hy hyf
          apply hc
          exact List.any_eq_true.mpr ⟨y, hy, beq_iff_eq.mpr (by rw [hyf, hrf])⟩
        rw [lastOf_cons_of_none hnone, if_pos hrf, hnone]
        rfl
      · rw [if_neg (by simp [hrf]), ih]
        cases hlast : lastOf f rs with
        | some c => rw [lastOf_cons_of_some hlast]
        | none => rw [lastOf_cons_of_none hlast, if_neg hrf]

/-- Sort-outcome-independent characterization of the merge: for every
ascending-by-confidence permutation `sorted` of the concatenated table `l`,
the post-dedup rows of filename `f` are empty exactly when `f` does not occur
in `l`; a surviving row is a member of `l` with that filename and maximal
confidence among `l`'s rows of that filename; and a surviving row exists
whenever the filename occurs. -/
theorem sorted_dedup_filter_spec {l sorted : List TempRecord}
    (hperm : sorted.Perm l) (hsort : ConfSorted sorted) (f : String) :
    ((dropDupKeepLast sorted).filter (fun r => r.filename == f) = []
       ↔ ∀ y ∈ l, y.filename ≠ f)
    ∧ (∀ b, (dropDupKeepLast sorted).filter (fun r => r.filename == f) = [b] →
        b ∈ l ∧ b.filename = f ∧ ∀ y ∈ l, y.filename = f → y.confidence ≤ b.confidence)
    ∧ (∀ r0 ∈ l, r0.filename = f →
        ∃ b, (dropDupKeepLast sorted).filter (fun r => r.filename == f) = [b]) := by
  have hchar := filter_dropDup_lastOf f sorted
  have hmem : ∀ y : TempRecord, y ∈ sorted ↔ y ∈ l := fun y => hperm.mem_iff
  refine ⟨?_, ?_, ?_⟩
  · rw [hchar]
    cases hlast : lastOf f sorted with
    | some c =>
      constructor
      · intro h; cases h
      · intro h
        exfalso
        obtain ⟨hm, hf⟩ := lastOf_mem hlast
        exact h c ((hmem c).mp hm) hf
    | none =>
      constructor
      · intro _ y hy
        exact (lastOf_eq_none.mp hlast) y ((hmem y).mpr hy)
      · intro _; rfl
  · intro b hb
    rw [hchar] at hb
    cases hlast : lastOf f sorted with
    | some c =>
      rw [hlast] at hb
      have hb2 : ([c] : List TempRecord) = [b] := hb
      injection hb2 with hb2 _
      subst hb2
      obtain ⟨hm, hf⟩ := lastOf_mem hlast
      exact ⟨(hmem c).mp hm, hf, fun y hy hyf =>
        lastOf_max hsort hlast y ((hmem y).mpr hy) hyf⟩
    | none =>
      rw [hlast] at hb
      cases hb
  · intro r0 h0 hf0
    rw [hchar]
    cases hlast : lastOf f sorted with
    | some c => exact ⟨c, rfl⟩
    | none =>
      exact absurd hf0 ((lastOf_eq_none.mp hlast) r0 ((hmem r0).mpr h0))

/-- Base record of the spec's merge example: confidence 0.4. -/
def specBase : TempRecord :=
  { filename := "A_20230101000000.JPG", deployment_id := "A",
    timestamp := 20230101000000, temperature := some 15,
    confidence := mkRat 2 5, extraction_status := "success" }

/-- Manual override of the spec's merge example: confidence 1.0, temperature 21. -/
def specOverride : TempRecord :=
  { filename := "A_20230101000000.JPG", deployment_id := "A",
    timestamp := 20230101000000, temperature := some 21,
    confidence := 1, extraction_status := "manual_entry" }

/-- A base record whose confidence (0.9) exceeds its correction's. -/
def strongBase : TempRecord :=
  { filename := "A_20230101000000.JPG", deployment_id := "A",
    timestamp := 20230101000000, temperature := some 10,
    confidence := mkRat 9 10, extraction_status := "success" }

/-- A correction row with low confidence (0.5). -/
def weakCorrection : TempRecord :=
  { filename := "A_20230101000000.JPG", deployment_id := "A",
    timestamp := 20230101000000, temperature := some 99,
    confidence := mkRat 1 2, extraction_status := "manual_entry" }

/-- A base row whose confidence ties its override's (both 1.0). -/
def tieBase : TempRecord :=
  { filename := "B_20230202000000.JPG", deployment_id := "B",
    timestamp := 20230202000000, temperature := some 10,
    confidence := 1, extraction_status := "success" }

/-- An override row with the same filename and the same confidence 1.0 as
`tieBase` but a different temperature. -/
def tieOverride : TempRecord :=
  { filename := "B_20230202000000.JPG", deployment_id := "B",
    timestamp := 20230202000000, temperature := some 99,
    confidence := 1, extraction_status := "manual_entry" }

/-- C1.  The claim quantifies over the Correction Merge as a whole, citing both
`manual_review.load_and_prepare_data` and `clean_temperature_data.load_and_merge_data`.
The second one falsifies it: a correction row overwrites the matching base row
unconditionally, so a low-confidence correction replaces a high-confidence base
record.  Concretely, merging base (confidence 0.9, temperature 10) with
correction (same filename, confidence 0.5, temperature 99) keeps the
correction's values, not the highest-confidence candidate's. -/
theorem c1_counterexample :
    load_and_merge_data [strongBase] [[weakCorrection]] = [setFields strongBase weakCorrection]
      ∧ (setFields strongBase weakCorrection).temperature = some 99
      ∧ (setFields strongBase weakCorrection).confidence = mkRat 1 2
      ∧ weakCorrection.confidence < strongBase.confidence
      ∧ strongBase.filename = weakCorrection.filename := by
  exact ⟨rfl, rfl, rfl, by decide, rfl⟩

/-- C1 (amended to the concatenation-based merge of
`manual_review.load_and_prepare_data`, and without the tie clause: the
program's `sort_values` is an unstable quicksort, so which row of a tied
maximal confidence survives is unspecified).  For every
ascending-by-confidence reordering of the concatenated input and every
filename occurring in it, the merged table keeps exactly one record with that
filename: a candidate of maximal confidence; when one candidate's confidence
strictly exceeds every other candidate's, the survivor is exactly that
candidate, for every sort outcome.  The stable `sortByConf` instance is the
defined `merge_tables`. -/
theorem c1_merge_highest_confidence (base : List TempRecord)
    (overrides : List (List TempRecord)) (f : String) (r0 : TempRecord)
    (h0 : r0 ∈ base ++ overrides.flatten) (hf0 : r0.filename = f)
    (sorted : List TempRecord)
    (hperm : sorted.Perm (base ++ overrides.flatten))
    (hsort : ConfSorted sorted) :
    ∃ b, (dropDupKeepLast sorted).filter (fun r => r.filename == f) = [b]
      ∧ b ∈ base ++ overrides.flatten
      ∧ b.filename = f
      ∧ (∀ y ∈ base ++ overrides.flatten, y.filename = f → y.confidence ≤ b.confidence)
      ∧ (∀ y ∈ base ++ overrides.flatten, y.filename = f →
          (∀ z ∈ base ++ overrides.flatten, z.filename = f → z ≠ y →
            z.confidence < y.confidence) → b = y)
      ∧ (sorted = sortByConf (base ++ overrides.flatten) →
          (merge_tables base overrides).filter (fun r => r.filename == f) = [b]) := by
  obtain ⟨-, hone, hex⟩ := sorted_dedup_filter_spec hperm hsort f
  obtain ⟨b, hb⟩ := hex r0 h0 hf0
  obtain ⟨hmem, hf, hmax⟩ := hone b hb
  refine ⟨b, hb, hmem, hf, hmax, ?_, ?_⟩
  · intro y hy hyf huniq
    by_cases hby : b = y
    · exact hby
    · have h1 := huniq b hmem hf hby
      have h2 := hmax y hy hyf
      exact absurd (lt_of_le_of_lt h2 h1) (lt_irrefl _)
  · intro hsorted
    subst hsorted
    exact hb

/-- C1 witness: the spec's concrete instance, at the sort outcome produced by
`sortByConf`.  The merge keeps one record for the filename, the override's
confidence 1.0 strictly exceeds the base's 0.4 so the override wins, and the
merged table is exactly the override row. -/
theorem c1_witness :
    (∃ b, (dropDupKeepLast (sortByConf ([specBase] ++ [[specOverride]].flatten))).filter
          (fun r => r.filename == "A_20230101000000.JPG") = [b]
        ∧ b ∈ [specBase] ++ [[specOverride]].flatten
        ∧ b.filename = "A_20230101000000.JPG"
        ∧ (∀ y ∈ [specBase] ++ [[specOverride]].flatten,
            y.filename = "A_20230101000000.JPG" → y.confidence ≤ b.confidence)
        ∧ (∀ y ∈ [specBase] ++ [[specOverride]].flatten,
            y.filename = "A_20230101000000.JPG" →
            (∀ z ∈ [specBase] ++ [[specOverride]].flatten,
              z.filename = "A_20230101000000.JPG" → z ≠ y →
                z.confidence < y.confidence) → b = y)
        ∧ (sortByConf ([specBase] ++ [[specOverride]].flatten)
              = sortByConf ([specBase] ++ [[specOverride]].flatten) →
            (merge_tables [specBase] [[specOverride]]).filter
              (fun r => r.filename == "A_20230101000000.JPG") = [b]))
      ∧ merge_tables [specBase] [[specOverride]] = [specOverride]
      ∧ specOverride.confidence = 1 ∧ specOverride.temperature = some 21 := by
  refine ⟨c1_merge_highest_confidence [specBase] [[specOverride]]
      "A_20230101000000.JPG" specBase
      (List.mem_append.mpr (Or.inl (List.mem_cons_self _ _))) rfl
      (sortByConf ([specBase] ++ [[specOverride]].flatten))
      (sortByConf_perm _) (confSorted_sortByConf _), ?_, rfl, rfl⟩
  rfl

/-- C8 counterexample: with a base row and an override row of the same
filename whose confidences tie at 1.0, one valid ascending sort outcome of the
single merge's input keeps the base row, while a valid sort outcome of the
double merge's input keeps the override row — a different table.  The
program's unstable `sort_values` pins down neither outcome, so exact
idempotence of the concatenate-sort-drop merge is not a property of the
program. -/
theorem c8_counterexample :
    ConfSorted [tieOverride, tieBase]
      ∧ List.Perm [tieOverride, tieBase]
          ([tieBase] ++ ([[tieOverride]] : List (List TempRecord)).flatten)
      ∧ ConfSorted [tieBase, tieOverride, tieOverride]
      ∧ List.Perm [tieBase, tieOverride, tieOverride]
          ([tieBase] ++ ([[tieOverride], [tieOverride]] : List (List TempRecord)).flatten)
      ∧ dropDupKeepLast [tieOverride, tieBase] = [tieBase]
      ∧ dropDupKeepLast [tieBase, tieOverride, tieOverride] = [tieOverride]
      ∧ tieBase ≠ tieOverride
      ∧ tieBase.confidence = tieOverride.confidence
      ∧ tieBase.filename = tieOverride.filename := by
  refine ⟨?_, List.Perm.swap _ _ _, ?_, List.Perm.refl _, by decide, by decide,
    by decide, rfl, rfl⟩
  · exact List.Pairwise.cons
      (fun z hz => by
        rcases List.mem_cons.mp hz with rfl | hz
        · exact le_refl _
        · cases hz)
      (List.Pairwise.cons (fun z hz => by cases hz) List.Pairwise.nil)
  · exact List.Pairwise.cons
      (fun z hz => by
        rcases List.mem_cons.mp hz with rfl | hz
        · exact le_refl _
        · rcases List.mem_cons.mp hz with rfl | hz
          · exact le_refl _
          · cases hz)
      (List.Pairwise.cons
        (fun z hz => by
          rcases List.mem_cons.mp hz with rfl | hz
          · exact le_refl _
          · cases hz)
        (List.Pairwise.cons (fun z hz => by cases hz) List.Pairwise.nil))

/-- C8 (amended).  Exact idempotence holds for the row-update merge of
`clean_temperature_data.load_and_merge_data`.  For the concatenate-sort-drop
merge of `manual_review.load_and_prepare_data` the program guarantees
idempotence only up to the unspecified choice among confidence-tied rows:
for every ascending-by-confidence sort outcome of the single merge's input
and every one of the double merge's input, a filename survives the one merge
exactly when it survives the other, the two survivors carry the same
(maximal) confidence, and when one candidate's confidence strictly exceeds
every other same-filename candidate's, the surviving rows are identical. -/
theorem c8_correction_merge_idempotent (base ov : List TempRecord) :
    load_and_merge_data base [ov, ov] = load_and_merge_data base [ov]
      ∧ ∀ l1 l2 : List TempRecord,
          l1.Perm (base ++ ([ov] : List (List TempRecord)).flatten) →
          ConfSorted l1 →
          l2.Perm (base ++ ([ov, ov] : List (List TempRecord)).flatten) →
          ConfSorted l2 →
          ∀ f : String,
            ((dropDupKeepLast l1).filter (fun r => r.filename == f) = []
              ↔ (dropDupKeepLast l2).filter (fun r => r.filename == f) = [])
            ∧ ∀ b1 b2 : TempRecord,
                (dropDupKeepLast l1).filter (fun r => r.filename == f) = [b1] →
                (dropDupKeepLast l2).filter (fun r => r.filename == f) = [b2] →
                b1.confidence = b2.confidence
                ∧ ((∀ z ∈ base ++ ov, z.filename = f → z ≠ b1 →
                    z.confidence < b1.confidence) → b1 = b2) := by
  constructor
  · unfold load_and_merge_data
    simp only [List.foldl_cons, List.foldl_nil]
    rw [foldl_apply_correction_map, foldl_apply_correction_map, List.map_map]
    apply List.map_congr_left
    intro r _
    exact foldl_updRow_idem ov r
  · intro l1 l2 hp1 hs1 hp2 hs2 f
    obtain ⟨hemp1, hone1, -⟩ := sorted_dedup_filter_spec hp1 hs1 f
    obtain ⟨hemp2, hone2, -⟩ := sorted_dedup_filter_spec hp2 hs2 f
    have hm1 : ∀ y : TempRecord,
        y ∈ base ++ ([ov] : List (List TempRecord)).flatten ↔ y ∈ base ∨ y ∈ ov := by
      intro y; simp
    have hm2 : ∀ y : TempRecord,
        y ∈ base ++ ([ov, ov] : List (List TempRecord)).flatten ↔ y ∈ base ∨ y ∈ ov := by
      intro y; simp
    have hmba : ∀ y : TempRecord, y ∈ base ∨ y ∈ ov → y ∈ base ++ ov := fun y =>
      List.mem_append.mpr
    constructor
    · rw [hemp1, hemp2]
      constructor
      · intro h y hy; exact h y ((hm1 y).mpr ((hm2 y).mp hy))
      · intro h y hy; exact h y ((hm2 y).mpr ((hm1 y).mp hy))
    · intro b1 b2 hb1 hb2
      obtain ⟨hmem1, hf1, hmax1⟩ := hone1 b1 hb1
      obtain ⟨hmem2, hf2, hmax2⟩ := hone2 b2 hb2
      have hb2mem : b2 ∈ base ++ ([ov] : List (List TempRecord)).flatten :=
        (hm1 b2).mpr ((hm2 b2).mp hmem2)
      have hb1mem : b1 ∈ base ++ ([ov, ov] : List (List TempRecord)).flatten :=
        (hm2 b1).mpr ((hm1 b1).mp hmem1)
      have hceq : b1.confidence = b2.confidence :=
        le_antisymm (hmax2 b1 hb1mem hf1) (hmax1 b2 hb2mem hf2)
      refine ⟨hceq, ?_⟩
      intro huniq
      by_cases heq : b2 = b1
      · exact heq.symm
      · have hlt := huniq b2 (hmba b2 ((hm1 b2).mp hb2mem)) hf2 heq
        rw [hceq] at hlt
        exact absurd hlt (lt_irrefl _)

/-- C8 witness: the spec example's base and override (confidences 0.4 and 1.0,
no tie).  The row-update merge is exactly idempotent, and the survivors of the
single and double concatenate-sort-drop merges coincide. -/
theorem c8_witness :
    (load_and_merge_data [specBase] [[specOverride], [specOverride]]
        = load_and_merge_data [specBase] [[specOverride]])
      ∧ specOverride.confidence = specOverride.confidence
      ∧ specOverride = specOverride := by
  have h := c8_correction_merge_idempotent [specBase] [specOverride]
  have h2 := (h.2 [specBase, specOverride] [specBase, specOverride, specOverride]
      (List.Perm.refl _)
      (List.Pairwise.cons
        (fun z hz => by
          rcases List.mem_cons.mp hz with rfl | hz
          · decide
          · cases hz)
        (List.Pairwise.cons (fun z hz => by cases hz) List.Pairwise.nil))
      (List.Perm.refl _)
      (List.Pairwise.cons
        (fun z hz => by
          rcases List.mem_cons.mp hz with rfl | hz
          · decide
          · rcases List.mem_cons.mp hz with rfl | hz
            · decide
            · cases hz)
        (List.Pairwise.cons
          (fun z hz => by
            rcases List.mem_cons.mp hz with rfl | hz
            · exact le_refl _
            · cases hz)
          (List.Pairwise.cons (fun z hz => by cases hz) List.Pairwise.nil)))
      "A_20230101000000.JPG").2 specOverride specOverride (by decide) (by decide)
  exact ⟨h.1, h2.1, h2.2 (by decide)⟩

/-- Insertion step of a stable ascending sort by timestamp
(`sort_values('timestamp')`). -/
def tsInsert (r : TempRecord) : List TempRecord → List TempRecord
  | [] => [r]
  | y :: ys => if r.timestamp ≤ y.timestamp then r :: y :: ys else y :: tsInsert r ys

/-- Stable sort of a deployment's rows by ascending timestamp. -/
def sortByTimestamp : List TempRecord → List TempRecord
  | [] => []
  | r :: rs => tsInsert r (sortByTimestamp rs)

/-- Insertion step of an ascending sort of rationals. -/
def ratInsert (x : ℚ) : List ℚ → List ℚ
  | [] => [x]
  | y :: ys => if x ≤ y then x :: y :: ys else y :: ratInsert x ys

/-- Ascending sort of rationals. -/
def sortRat : List ℚ → List ℚ
  | [] => []
  | x :: xs => ratInsert x (sortRat xs)

/-- `numpy.median`: the middle element of the sorted values for odd length,
the mean of the two middle elements for even length. -/
def npMedian (l : List ℚ) : ℚ :=
  if l.length % 2 = 1 then (sortRat l).getD (l.length / 2) 0
  else ((sortRat l).getD (l.length / 2 - 1) 0 + (sortRat l).getD (l.length / 2) 0) / 2

/-- The suggested remediation of an issue row.  The source builds an f-string;
the Celsius value interpolated into `convert_to_celsius: ...°C` is carried as
the constructor argument. -/
inductive IssueAction where
  | convertToCelsius (celsius : ℚ)
  | manualReviewOrInterpolate
  | manualReview
  | manualReviewOrReprocess
  deriving DecidableEq, Repr

/-- One row of the issues report of `detect_extreme_anomalies`. -/
structure Issue where
  filename : String
  deployment_id : String
  timestamp : Nat
  temperature : ℚ
  confidence : ℚ
  residual : ℚ
  z_score : ℚ
  issue_type : String
  priority : String
  action : IssueAction
  deriving DecidableEq, Repr

/-- The anomaly classification block of `detect_extreme_anomalies`
(lines 124-135): `>= 40` is a Fahrenheit-conversion suspect with the
Celsius-converted value in the action, `<= 2` a low extraction error, and
anything strictly between is a generic extreme outlier. -/
def classify_anomaly (t : ℚ) : String × String × IssueAction :=
  if 40 ≤ t then
    ("fahrenheit_conversion", "high", IssueAction.convertToCelsius ((t - 32) * 5 / 9))
  else if t ≤ 2 then
    ("extraction_error_low", "high", IssueAction.manualReviewOrInterpolate)
  else
    ("extreme_outlier", "medium", IssueAction.manualReview)

/-- The temperature of a row known to be non-missing. -/
def tempVal (r : TempRecord) : ℚ := r.temperature.getD 0

/-- Median of the defined residuals (`np.median(valid_residuals)`). -/
def medianResidual (res : List (Option ℚ)) : ℚ := npMedian (res.filterMap id)

/-- Median absolute deviation of the defined residuals. -/
def madResidual (res : List (Option ℚ)) : ℚ :=
  npMedian ((res.filterMap id).map fun x => |x - medianResidual res|)

/-- Robust z-score of one residual:
`abs(residual - median_residual) / (mad_residual + 1e-8)`. -/
def robustZ (res : List (Option ℚ)) (r : ℚ) : ℚ :=
  |r - medianResidual res| / (madResidual res + mkRat 1 100000000)

/-- The flagging loop of `sliding_window_anomaly_detection` (lines 97-107):
flags start out all False; when at least one residual is defined, each defined
residual is flagged exactly when its robust z-score exceeds the threshold. -/
def flagOf (res : List (Option ℚ)) (threshold : ℚ) : Option ℚ → Bool
  | none => false
  | some r => decide (robustZ res r > threshold)

def anomaly_flags (res : List (Option ℚ)) (threshold : ℚ) : List Bool :=
  if (res.filterMap id).isEmpty then res.map fun _ => false
  else res.map (flagOf res threshold)

/-- Adaptive window size: `min(48, len(valid_data) // 3)`. -/
def adaptiveWindow (n : ℕ) : ℕ := min 48 (n / 3)

/-- The sliding-window residual loop (lines 81-105 of
`comprehensive_data_issues_detector.py`): around each index take the window
`[i - w//2, i + w//2 + 1)` clipped to the series, skip the index when the
window holds fewer than 10 points, otherwise fit the (abstract) robust
regression on the window and record observed minus predicted.  A `fit`
returning `none` models a fit failure (`except: continue`). -/
def residualAt (fit : List (ℚ × ℚ) → ℚ → Option ℚ) (hoursOf : TempRecord → ℚ)
    (valid : List TempRecord) (w : ℕ) (i : ℕ) : Option ℚ :=
  if min valid.length (i + w / 2 + 1) - (i - w / 2) < 10 then none
  else
    match fit (((valid.drop (i - w / 2)).take
          (min valid.length (i + w / 2 + 1) - (i - w / 2))).map
        fun r => (hoursOf r, tempVal r)) (hoursOf (valid.getD i default)) with
    | none => none
    | some p => some (tempVal (valid.getD i default) - p)

def windowResiduals (fit : List (ℚ × ℚ) → ℚ → Option ℚ) (hoursOf : TempRecord → ℚ)
    (valid : List TempRecord) (w : ℕ) : List (Option ℚ) :=
  (List.range valid.length).map (residualAt fit hoursOf valid w)

/-- The timestamp-sorted rows of a table that carry a temperature. -/
def validSeries (df : List TempRecord) : List TempRecord :=
  (sortByTimestamp df).filter fun r => r.temperature.isSome

/-- Residuals of a sorted valid series under the adaptive window size. -/
def detectResiduals (fit : List (ℚ × ℚ) → ℚ → Option ℚ) (hoursOf : TempRecord → ℚ)
    (valid : List TempRecord) : List (Option ℚ) :=
  windowResiduals fit hoursOf valid (adaptiveWindow valid.length)

/-- One step of the scoring loop of `detect_extreme_anomalies`: an index with
a defined residual becomes an issue row exactly when its robust z-score
exceeds the threshold; the row is classified by `classify_anomaly`. -/
def scoreIssueAt (valid : List TempRecord) (res : List (Option ℚ))
    (zThreshold : ℚ) (i : ℕ) (r : ℚ) : Option Issue :=
  if robustZ res r > zThreshold then
    some { filename := (valid.getD i default).filename,
           deployment_id := (valid.getD i default).deployment_id,
           timestamp := (valid.getD i default).timestamp,
           temperature := tempVal (valid.getD i default),
           confidence := (valid.getD i default).confidence,
           residual := r,
           z_score := robustZ res r,
           issue_type := (classify_anomaly (tempVal (valid.getD i default))).1,
           priority := (classify_anomaly (tempVal (valid.getD i default))).2.1,
           action := (classify_anomaly (tempVal (valid.getD i default))).2.2 }
  else none

/-- The scoring loop of `detect_extreme_anomalies` (lines 115-148):
`for i, residual in enumerate(residuals)`, skipping undefined residuals. -/
def scoreIssues (valid : List TempRecord) (res : List (Option ℚ))
    (zThreshold : ℚ) : List Issue :=
  (List.range valid.length).filterMap fun i =>
    (res.getD i none).bind (scoreIssueAt valid res zThreshold i)

/-- `detect_extreme_anomalies(df_deployment, z_threshold)` of
`comprehensive_data_issues_detector.py`: sort by timestamp, keep rows with a
temperature, return no issues when fewer than 20 remain or when no residual
could be computed, otherwise flag and classify by robust z-score. -/
def detect_extreme_anomalies (fit : List (ℚ × ℚ) → ℚ → Option ℚ)
    (hoursOf : TempRecord → ℚ) (df : List TempRecord) (zThreshold : ℚ) : List Issue :=
  if (validSeries df).length < 20 then []
  else if ((detectResiduals fit hoursOf (validSeries df)).filterMap id).isEmpty then []
  else scoreIssues (validSeries df) (detectResiduals fit hoursOf (validSeries df)) zThreshold

theorem anomaly_flags_true_iff (res : List (Option ℚ)) (t : ℚ) (i : ℕ) :
    (anomaly_flags res t).getD i false = true ↔
      ∃ r, res[i]? = some (some r) ∧ robustZ res r > t := by
  unfold anomaly_flags
  by_cases hemp : (res.filterMap id).isEmpty = true
  · rw [if_pos hemp]
    constructor
    · intro hcontra
      exfalso
      rw [List.getD_eq_getElem?_getD, List.getElem?_map] at hcontra
      cases hq : res[i]? with
      | none => rw [hq] at hcontra; cases hcontra
      | some o => rw [hq] at hcontra; cases hcontra
    · rintro ⟨r, hr, -⟩
      exfalso
      have hmem : (some r) ∈ res := List.getElem?_mem hr
      have : r ∈ res.filterMap id := List.mem_filterMap.mpr ⟨some r, hmem, rfl⟩
      rw [List.isEmpty_iff.mp hemp] at this
      cases this
  · rw [if_neg hemp]
    rw [List.getD_eq_getElem?_getD, List.getElem?_map]
    cases hq : res[i]? with
    | none =>
      simp only [Option.map_none', Option.getD_none]
      constructor
      · intro hcontra; cases hcontra
      · rintro ⟨r, hr, -⟩; cases hr
    | some o =>
      cases o with
      | none =>
        simp only [Option.map_some', Option.getD_some, flagOf]
        constructor
        · intro hcontra; cases hcontra
        · rintro ⟨r, hr, -⟩; cases hr
      | some r =>
        simp only [Option.map_some', Option.getD_some, flagOf, decide_eq_true_eq]
        constructor
        · intro hz; exact ⟨r, rfl, hz⟩
        · rintro ⟨r', hr', hz⟩
          cases hr'
          exact hz

theorem count_true_map_le {α : Type} (l : List α) (f g : α → Bool)
    (h : ∀ x, f x = true → g x = true) :
    (l.map f).count true ≤ (l.map g).count true := by
  induction l with
  | nil => exact le_refl _
  | cons a tl ih =>
    rw [List.map_cons, List.map_cons, List.count_cons, List.count_cons]
    refine Nat.add_le_add ih ?_
    cases hfa : f a with
    | true =>
      rw [h a hfa]
    | false =>
      cases g a with
      | true => decide
      | false => exact le_refl _

theorem filterMap_sublist_of_imp {α β : Type} (f g : α → Option β) (l : List α)
    (h : ∀ x b, f x = some b → g x = some b) :
    (l.filterMap f).Sublist (l.filterMap g) := by
  induction l with
  | nil => exact List.Sublist.refl _
  | cons a tl ih =>
    rw [List.filterMap_cons, List.filterMap_cons]
    cases hfa : f a with
    | none =>
      cases hga : g a with
      | none => exact ih
      | some b => exact ih.trans (List.sublist_cons_self _ _)
    | some b =>
      rw [h a b hfa]
      exact ih.cons₂ b

/-- C2.  For a fixed residual stream (hence fixed deployment and window
configuration), flagging at a higher threshold selects a subset of the points
flagged at a lower one; the number of flagged points never increases with the
threshold; a point is flagged exactly when its residual is defined and
`|residual - median| / (MAD + 1e-8)` exceeds the threshold; and the issue list
of `detect_extreme_anomalies` at the higher threshold is a sublist of the one
at the lower threshold, for every fit function. -/
theorem c2_threshold_monotone (res : List (Option ℚ)) (t₁ t₂ : ℚ) (h : t₁ ≤ t₂) :
    (∀ i, (anomaly_flags res t₂).getD i false = true →
        (anomaly_flags res t₁).getD i false = true)
    ∧ (anomaly_flags res t₂).count true ≤ (anomaly_flags res t₁).count true
    ∧ (∀ t i, (anomaly_flags res t).getD i false = true ↔
        ∃ r, res[i]? = some (some r) ∧ robustZ res r > t)
    ∧ ∀ (fit : List (ℚ × ℚ) → ℚ → Option ℚ) (hoursOf : TempRecord → ℚ)
        (df : List TempRecord),
        (detect_extreme_anomalies fit hoursOf df t₂).Sublist
          (detect_extreme_anomalies fit hoursOf df t₁) := by
  refine ⟨?_, ?_, fun t i => anomaly_flags_true_iff res t i, ?_⟩
  · intro i hflag
    rcases (anomaly_flags_true_iff res t₂ i).mp hflag with ⟨r, hr, hz⟩
    exact (anomaly_flags_true_iff res t₁ i).mpr ⟨r, hr, lt_of_le_of_lt h hz⟩
  · unfold anomaly_flags
    by_cases hemp : (res.filterMap id).isEmpty = true
    · rw [if_pos hemp, if_pos hemp]
    · rw [if_neg hemp, if_neg hemp]
      apply count_true_map_le
      intro o ho
      cases o with
      | none => rw [flagOf] at ho; cases ho
      | some r =>
        simp only [flagOf, decide_eq_true_eq] at ho ⊢
        exact lt_of_le_of_lt h ho
  · intro fit hoursOf df
    unfold detect_extreme_anomalies
    by_cases h20 : (validSeries df).length < 20
    · rw [if_pos h20, if_pos h20]
    · rw [if_neg h20, if_neg h20]
      by_cases hemp :
          ((detectResiduals fit hoursOf (validSeries df)).filterMap id).isEmpty = true
      · rw [if_pos hemp, if_pos hemp]
      · rw [if_neg hemp, if_neg hemp]
        unfold scoreIssues
        apply filterMap_sublist_of_imp
        intro i b hib
        cases hro : (detectResiduals fit hoursOf (validSeries df)).getD i none with
        | none => rw [hro, Option.none_bind] at hib; cases hib
        | some r =>
          rw [hro, Option.some_bind] at hib
          rw [Option.some_bind]
          unfold scoreIssueAt at hib ⊢
          rcases lt_or_le t₂ (robustZ (detectResiduals fit hoursOf (validSeries df)) r)
            with hz | hz
          · rw [if_pos hz] at hib
            rw [if_pos (lt_of_le_of_lt h hz)]
            exact hib
          · rw [if_neg (not_lt.mpr hz)] at hib
            cases hib

/-- C2 witness at the residual stream `[some 0, some 100, none]` and
thresholds 1 and 5. -/
theorem c2_witness :
    (1 : ℚ) ≤ 5
      ∧ ((∀ i, (anomaly_flags [some 0, some 100, none] 5).getD i false = true →
            (anomaly_flags [some 0, some 100, none] 1).getD i false = true)
        ∧ (anomaly_flags [some 0, some 100, none] 5).count true ≤
            (anomaly_flags [some 0, some 100, none] 1).count true
        ∧ (∀ t i, (anomaly_flags [some 0, some 100, none] t).getD i false = true ↔
            ∃ r, [some (0 : ℚ), some 100, none][i]? = some (some r)
              ∧ robustZ [some 0, some 100, none] r > t)
        ∧ ∀ (fit : List (ℚ × ℚ) → ℚ → Option ℚ) (hoursOf : TempRecord → ℚ)
            (df : List TempRecord),
            (detect_extreme_anomalies fit hoursOf df 5).Sublist
              (detect_extreme_anomalies fit hoursOf df 1)) :=
  ⟨by decide, c2_threshold_monotone [some 0, some 100, none] 1 5 (by decide)⟩

/-- C3.  The anomaly classifier maps a temperature of at least 40 to a
high-priority `fahrenheit_conversion` issue whose action carries the Celsius
value `(t - 32) * 5 / 9`, a temperature of at most 2 to a high-priority
`extraction_error_low` issue, and anything strictly between 2 and 40 to a
medium-priority `extreme_outlier`; the boundaries are inclusive exactly at 40
and at 2, and every issue produced by `detect_extreme_anomalies` is labelled
by this classifier applied to its own temperature. -/
theorem c3_classification_boundaries (t : ℚ) :
    (40 ≤ t → classify_anomaly t =
      ("fahrenheit_conversion", "high", IssueAction.convertToCelsius ((t - 32) * 5 / 9)))
    ∧ (t ≤ 2 → classify_anomaly t =
      ("extraction_error_low", "high", IssueAction.manualReviewOrInterpolate))
    ∧ (2 < t → t < 40 → classify_anomaly t =
      ("extreme_outlier", "medium", IssueAction.manualReview))
    ∧ ∀ (fit : List (ℚ × ℚ) → ℚ → Option ℚ) (hoursOf : TempRecord → ℚ)
        (df : List TempRecord) (z : ℚ), ∀ iss ∈ detect_extreme_anomalies fit hoursOf df z,
        (iss.issue_type, iss.priority, iss.action) = classify_anomaly iss.temperature := by
  refine ⟨?_, ?_, ?_, ?_⟩
  · intro h40
    unfold classify_anomaly
    rw [if_pos h40]
  · intro h2
    unfold classify_anomaly
    rw [if_neg (by linarith), if_pos h2]
  · intro hgt hlt
    unfold classify_anomaly
    rw [if_neg (by linarith), if_neg (by linarith)]
  · intro fit hoursOf df z iss hmem
    unfold detect_extreme_anomalies at hmem
    by_cases h20 : (validSeries df).length < 20
    · rw [if_pos h20] at hmem
      cases hmem
    · rw [if_neg h20] at hmem
      by_cases hemp :
          ((detectResiduals fit hoursOf (validSeries df)).filterMap id).isEmpty = true
      · rw [if_pos hemp] at hmem
        cases hmem
      · rw [if_neg hemp] at hmem
        unfold scoreIssues at hmem
        rcases List.mem_filterMap.mp hmem with ⟨i, -, hfi⟩
        cases hro : (detectResiduals fit hoursOf (validSeries df)).getD i none with
        | none => rw [hro, Option.none_bind] at hfi; cases hfi
        | some r =>
          rw [hro, Option.some_bind] at hfi
          unfold scoreIssueAt at hfi
          by_cases hz : robustZ (detectResiduals fit hoursOf (validSeries df)) r > z
          · rw [if_pos hz] at hfi
            injection hfi with hfi
            subst hfi
            rfl
          · rw [if_neg hz] at hfi
            cases hfi

/-- C3 witness at the boundary temperatures 40 and 2, and at 3 in between. -/
theorem c3_witness :
    classify_anomaly 40 =
        ("fahrenheit_conversion", "high", IssueAction.convertToCelsius ((40 - 32) * 5 / 9))
      ∧ classify_anomaly 2 =
        ("extraction_error_low", "high", IssueAction.manualReviewOrInterpolate)
      ∧ classify_anomaly 3 = ("extreme_outlier", "medium", IssueAction.manualReview) :=
  ⟨(c3_classification_boundaries 40).1 (le_refl _),
    (c3_classification_boundaries 2).2.1 (le_refl _),
    (c3_classification_boundaries 3).2.2.1 (by decide) (by decide)⟩

/-- C9.  A deployment whose valid series holds between 20 and 29 readings
passes the length-20 precondition, yet the adaptive window size
`min(48, n // 3)` is at most 9, every candidate window has fewer than 10
points, every index is skipped, and the detector returns no issues — for
every fit function and every threshold. -/
theorem c9_short_series_returns_empty (fit : List (ℚ × ℚ) → ℚ → Option ℚ)
    (hoursOf : TempRecord → ℚ) (df : List TempRecord) (z : ℚ)
    (h20 : 20 ≤ (validSeries df).length) (h29 : (validSeries df).length ≤ 29) :
    detect_extreme_anomalies fit hoursOf df z = [] := by
  have hall : ∀ o ∈ detectResiduals fit hoursOf (validSeries df), o = none := by
    intro o ho
    unfold detectResiduals windowResiduals at ho
    rcases List.mem_map.mp ho with ⟨i, -, heq⟩
    rw [← heq]
    unfold residualAt
    have hw : adaptiveWindow (validSeries df).length ≤ 9 := by
      have h3 : (validSeries df).length / 3 ≤ 9 := by omega
      exact le_trans (min_le_right _ _) h3
    have hcond : min (validSeries df).length
        (i + adaptiveWindow (validSeries df).length / 2 + 1)
        - (i - adaptiveWindow (validSeries df).length / 2) < 10 := by
      have hle := min_le_right (validSeries df).length
        (i + adaptiveWindow (validSeries df).length / 2 + 1)
      omega
    rw [if_pos hcond]
  have hB : ((detectResiduals fit hoursOf (validSeries df)).filterMap id).isEmpty = true := by
    have hnil : (detectResiduals fit hoursOf (validSeries df)).filterMap id = [] :=
      List.filterMap_eq_nil_iff.mpr fun a ha => hall a ha
    rw [hnil]
    rfl
  unfold detect_extreme_anomalies
  rw [if_neg (not_lt.mpr h20), if_pos hB]

/-- A deployment table with exactly 20 valid readings. -/
def c9df : List TempRecord := (List.range 20).map fun i =>
  { filename := "r", deployment_id := "D", timestamp := i,
    temperature := some 17, confidence := 1, extraction_status := "success" }

/-- C9 witness: 20 valid readings, a total fit function, threshold 10. -/
theorem c9_witness :
    20 ≤ (validSeries c9df).length ∧ (validSeries c9df).length ≤ 29
      ∧ detect_extreme_anomalies (fun _ _ => some 0) (fun _ => 0) c9df 10 = [] :=
  ⟨by decide, by decide,
    c9_short_series_returns_empty (fun _ _ => some 0) (fun _ => 0) c9df 10
      (by decide) (by decide)⟩

/-- Accumulator pass behind `uniqueKeepFirst`; `seen` holds the values
already emitted. -/
def uniqueKeepFirstGo : List String → List String → List String
  | [], _ => []
  | x :: xs, seen =>
    if x ∈ seen then uniqueKeepFirstGo xs seen
    else x :: uniqueKeepFirstGo xs (x :: seen)

/-- `pandas.unique` over a column: distinct values in first-occurrence order. -/
def uniqueKeepFirst (l : List String) : List String := uniqueKeepFirstGo l []

/-- Index of the first row carrying a given filename
(`deployment_data[deployment_data['filename'] == ...].index[0]`). -/
def firstIdxOfFilename (fn : String) : List TempRecord → Option ℕ
  | [] => none
  | r :: rs =>
    if r.filename == fn then some 0 else (firstIdxOfFilename fn rs).map (· + 1)

/-- The advisory estimate of `detect_failed_extractions` (lines 32-45): the
median of the valid temperatures among the rows at positions
`[max(0, idx-3), min(len, idx+4))` of the deployment's timestamp-sorted
series, i.e. at most 3 positions before and at most 3 after the row itself;
`none` (NaN) when no surrounding valid reading exists. -/
def localEstimate (dep : List TempRecord) (idx : ℕ) : Option ℚ :=
  if (((dep.drop (idx - 3)).take (min dep.length (idx + 4) - (idx - 3))).filterMap
      (fun r => r.temperature)).isEmpty then none
  else some (npMedian (((dep.drop (idx - 3)).take
      (min dep.length (idx + 4) - (idx - 3))).filterMap fun r => r.temperature))

/-- One row of the failed-extraction report.  The float `context_std` column
is omitted: it is a floating-point standard deviation (an irrational square
root) used only for display. -/
structure FailIssue where
  filename : String
  deployment_id : String
  timestamp : Nat
  confidence : ℚ
  estimated_temperature : Option ℚ
  issue_type : String
  priority : String
  action : IssueAction
  deriving DecidableEq, Repr

/-- The issue built for one missing row: locate the row's filename in its
deployment's timestamp-sorted series and estimate from the surrounding
window; skipped (`len(missing_idx) == 0`) when the filename is not found. -/
def failIssueFor (df : List TempRecord) (m : TempRecord) : Option FailIssue :=
  match firstIdxOfFilename m.filename
      (sortByTimestamp (df.filter fun r => r.deployment_id == m.deployment_id)) with
  | none => none
  | some idx =>
    some { filename := m.filename, deployment_id := m.deployment_id,
           timestamp := m.timestamp, confidence := m.confidence,
           estimated_temperature := localEstimate
             (sortByTimestamp (df.filter fun r => r.deployment_id == m.deployment_id)) idx,
           issue_type := "failed_extraction", priority := "high",
           action := IssueAction.manualReviewOrReprocess }

/-- `detect_failed_extractions(df)` of `comprehensive_data_issues_detector.py`
(lines 16-59): for every deployment appearing among the rows with missing
temperature (in first-occurrence order), turn each of its missing rows into a
high-priority `failed_extraction` issue.  The function only reads `df`; the
estimate is returned in the report and never written back. -/
def detect_failed_extractions (df : List TempRecord) : List FailIssue :=
  (uniqueKeepFirst ((df.filter fun r => r.temperature.isNone).map
      fun r => r.deployment_id)).flatMap fun d =>
    ((df.filter fun r => r.temperature.isNone).filter
        fun r => r.deployment_id == d).filterMap (failIssueFor df)

theorem mem_tsInsert {x r : TempRecord} {l : List TempRecord} :
    x ∈ tsInsert r l ↔ x = r ∨ x ∈ l := by
  induction l with
  | nil => simp [tsInsert]
  | cons y ys ih =>
    by_cases h : r.timestamp ≤ y.timestamp
    · simp [tsInsert, h]
    · simp only [tsInsert, if_neg h, List.mem_cons, ih]
      tauto

theorem mem_sortByTimestamp {x : TempRecord} {l : List TempRecord} :
    x ∈ sortByTimestamp l ↔ x ∈ l := by
  induction l with
  | nil => simp [sortByTimestamp]
  | cons r rs ih => simp [sortByTimestamp, mem_tsInsert, ih]

theorem mem_uniqueKeepFirstGo {x : String} :
    ∀ (l seen : List String), x ∈ l → x ∈ uniqueKeepFirstGo l seen ∨ x ∈ seen := by
  intro l
  induction l with
  | nil => intro seen h; cases h
  | cons y ys ih =>
    intro seen hx
    rw [uniqueKeepFirstGo]
    by_cases hseen : y ∈ seen
    · rw [if_pos hseen]
      rcases List.mem_cons.mp hx with rfl | hx
      · exact Or.inr hseen
      · exact ih seen hx
    · rw [if_neg hseen]
      rcases List.mem_cons.mp hx with rfl | hx
      · exact Or.inl (List.mem_cons_self _ _)
      · rcases ih (y :: seen) hx with hgo | hsn
        · exact Or.inl (List.mem_cons_of_mem _ hgo)
        · rcases List.mem_cons.mp hsn with rfl | hsn
          · exact Or.inl (List.mem_cons_self _ _)
          · exact Or.inr hsn

theorem mem_uniqueKeepFirst_of_mem {x : String} {l : List String} (hx : x ∈ l) :
    x ∈ uniqueKeepFirst l := by
  rcases mem_uniqueKeepFirstGo l [] hx with hgo | hsn
  · exact hgo
  · cases hsn

theorem firstIdx_isSome_of_mem {fn : String} {m : TempRecord} :
    ∀ {l : List TempRecord}, m ∈ l → m.filename = fn →
      ∃ i, firstIdxOfFilename fn l = some i := by
  intro l
  induction l with
  | nil => intro h; cases h
  | cons r rs ih =>
    intro hm hfn
    rw [firstIdxOfFilename]
    by_cases hr : (r.filename == fn) = true
    · exact ⟨0, by rw [if_pos hr]⟩
    · rcases List.mem_cons.mp hm with rfl | hm
      · exact absurd (beq_iff_eq.mpr hfn) hr
      · rcases ih hm hfn with ⟨i, hi⟩
        exact ⟨i + 1, by rw [if_neg hr, hi]; rfl⟩

/-- C7.  Every row with a missing temperature becomes a `failed_extraction`
issue of priority high; its estimated temperature is the local-median
estimate over at most 3 positions before and 3 after the row's (first)
position in its deployment's timestamp-sorted series.  The detector is a pure
function of the table: the estimate lives only in the returned report and the
source table is never modified. -/
theorem c7_failed_extraction_issue (df : List TempRecord) (m : TempRecord)
    (hm : m ∈ df) (hnull : m.temperature = none) :
    ∃ iss ∈ detect_failed_extractions df,
      iss.filename = m.filename ∧ iss.deployment_id = m.deployment_id
      ∧ iss.issue_type = "failed_extraction" ∧ iss.priority = "high"
      ∧ ∃ idx, firstIdxOfFilename m.filename
            (sortByTimestamp (df.filter fun r => r.deployment_id == m.deployment_id))
            = some idx
          ∧ iss.estimated_temperature = localEstimate
              (sortByTimestamp (df.filter fun r => r.deployment_id == m.deployment_id))
              idx := by
  have hmiss : m ∈ df.filter fun r => r.temperature.isNone :=
    List.mem_filter.mpr ⟨hm, by rw [hnull]; rfl⟩
  have hmdep : m ∈ sortByTimestamp (df.filter fun r => r.deployment_id == m.deployment_id) :=
    mem_sortByTimestamp.mpr (List.mem_filter.mpr ⟨hm, by simp⟩)
  obtain ⟨idx, hidx⟩ := firstIdx_isSome_of_mem hmdep rfl
  have hfail : failIssueFor df m = some
      { filename := m.filename, deployment_id := m.deployment_id,
        timestamp := m.timestamp, confidence := m.confidence,
        estimated_temperature := localEstimate
          (sortByTimestamp (df.filter fun r => r.deployment_id == m.deployment_id)) idx,
        issue_type := "failed_extraction", priority := "high",
        action := IssueAction.manualReviewOrReprocess } := by
    simp only [failIssueFor, hidx]
  refine ⟨{ filename := m.filename, deployment_id := m.deployment_id,
            timestamp := m.timestamp, confidence := m.confidence,
            estimated_temperature := localEstimate
              (sortByTimestamp
                (df.filter fun r => r.deployment_id == m.deployment_id)) idx,
            issue_type := "failed_extraction", priority := "high",
            action := IssueAction.manualReviewOrReprocess },
    ?_, rfl, rfl, rfl, rfl, idx, hidx, rfl⟩
  apply List.mem_flatMap.mpr
  refine ⟨m.deployment_id,
    mem_uniqueKeepFirst_of_mem (List.mem_map.mpr ⟨m, hmiss, rfl⟩), ?_⟩
  apply List.mem_filterMap.mpr
  exact ⟨m, List.mem_filter.mpr ⟨hmiss, by simp⟩, hfail⟩

/-- A deployment with three valid readings surrounding one failed row. -/
def c7df : List TempRecord :=
  [ { filename := "a", deployment_id := "D", timestamp := 1,
      temperature := some 18, confidence := 1, extraction_status := "success" },
    { filename := "b", deployment_id := "D", timestamp := 2,
      temperature := none, confidence := 0, extraction_status := "failed" },
    { filename := "c", deployment_id := "D", timestamp := 3,
      temperature := some 20, confidence := 1, extraction_status := "success" },
    { filename := "d", deployment_id := "D", timestamp := 4,
      temperature := some 20, confidence := 1, extraction_status := "success" } ]

/-- The failed row of `c7df`. -/
def c7missing : TempRecord :=
  { filename := "b", deployment_id := "D", timestamp := 2,
    temperature := none, confidence := 0, extraction_status := "failed" }

/-- C7 witness: for the failed row of `c7df` the detector emits exactly one
high-priority `failed_extraction` issue whose estimate is the median 20 of
the surrounding valid readings 18, 20, 20. -/
theorem c7_witness :
    c7missing ∈ c7df ∧ c7missing.temperature = none
      ∧ (∃ iss ∈ detect_failed_extractions c7df,
          iss.filename = c7missing.filename
          ∧ iss.deployment_id = c7missing.deployment_id
          ∧ iss.issue_type = "failed_extraction" ∧ iss.priority = "high"
          ∧ ∃ idx, firstIdxOfFilename c7missing.filename
                (sortByTimestamp (c7df.filter
                  fun r => r.deployment_id == c7missing.deployment_id)) = some idx
              ∧ iss.estimated_temperature = localEstimate
                  (sortByTimestamp (c7df.filter
                    fun r => r.deployment_id == c7missing.deployment_id)) idx)
      ∧ detect_failed_extractions c7df =
          [ { filename := "b", deployment_id := "D", timestamp := 2,
              confidence := 0, estimated_temperature := some 20,
              issue_type := "failed_extraction", priority := "high",
              action := IssueAction.manualReviewOrReprocess } ] :=
  ⟨by decide, rfl,
    c7_failed_extraction_issue c7df c7missing (by decide) rfl, by decide⟩

/-- ASCII digit test (`str.isdigit()` on the characters at hand). -/
def isDigitChar (c : Char) : Bool := '0' ≤ c && c ≤ '9'

/-- `name.split('_')` on character lists: splitting on every underscore,
keeping empty tokens, never returning an empty token list. -/
def splitUnd : List Char → List (List Char)
  | [] => [[]]
  | c :: cs =>
    match splitUnd cs with
    | [] => [[]]
    | t :: ts => if c = '_' then [] :: t :: ts else (c :: t) :: ts

/-- `filename.rsplit('.', 1)[0]`: everything before the last dot; the whole
name when no dot occurs. -/
def stripExt (l : List Char) : List Char :=
  if '.' ∈ l then ((l.reverse.dropWhile fun c => c != '.').drop 1).reverse else l

/-- The 14-digit-token test of `extract_timestamp` / `extract_deployment_id`:
`len(part) == 14 and part.isdigit()`. -/
def is14Digits (p : List Char) : Bool := p.length == 14 && p.all isDigitChar

/-- `'_'.join(parts)`. -/
def joinUnd : List (List Char) → List Char
  | [] => []
  | [p] => p
  | p :: ps => p ++ '_' :: joinUnd ps

/-- Index of the first 14-digit token (`for i, part in enumerate(parts)`). -/
def firstIdx14 : List (List Char) → Option ℕ
  | [] => none
  | p :: ps => if is14Digits p then some 0 else (firstIdx14 ps).map (· + 1)

/-- `extract_timestamp` of `extract_temp.py` (lines 22-41): strip the
extension, split on underscores, return the first 14-digit token, or the last
token as a fallback when none exists. -/
def extract_timestamp (filename : List Char) : List Char :=
  match (splitUnd (stripExt filename)).find? is14Digits with
  | some p => p
  | none => (splitUnd (stripExt filename)).getLastD []

/-- `extract_deployment_id` of `extract_temp.py` (lines 44-64): strip the
extension, split on underscores, join the tokens before the first 14-digit
token, or all but the last token as a fallback when none exists. -/
def extract_deployment_id (filename : List Char) : List Char :=
  match firstIdx14 (splitUnd (stripExt filename)) with
  | some i => joinUnd ((splitUnd (stripExt filename)).take i)
  | none => joinUnd (splitUnd (stripExt filename)).dropLast

theorem splitUnd_ne_nil (l : List Char) : splitUnd l ≠ [] := by
  cases l with
  | nil => intro h; cases h
  | cons c cs =>
    rw [splitUnd]
    cases splitUnd cs with
    | nil => intro h; cases h
    | cons t ts =>
      by_cases hc : c = '_'
      · simp [hc]
      · simp [hc]

theorem dropWhile_append_all {p : Char → Bool} :
    ∀ {A B : List Char}, (∀ a ∈ A, p a = true) →
      (A ++ B).dropWhile p = B.dropWhile p := by
  intro A
  induction A with
  | nil => intro B _; rfl
  | cons a as ih =>
    intro B hall
    rw [List.cons_append, List.dropWhile_cons,
      if_pos (hall a (List.mem_cons_self _ _))]
    exact ih fun x hx => hall x (List.mem_cons_of_mem _ hx)

theorem stripExt_append {x y : List Char} (hy : '.' ∉ y) :
    stripExt (x ++ '.' :: y) = x := by
  have hdot : '.' ∈ x ++ '.' :: y :=
    List.mem_append.mpr (Or.inr (List.mem_cons_self _ _))
  rw [stripExt, if_pos hdot, List.reverse_append, List.reverse_cons,
    List.append_assoc]
  rw [dropWhile_append_all (fun a ha => ?_)]
  · simp only [List.singleton_append, List.dropWhile_cons, bne_self_eq_false,
      Bool.false_eq_true, if_false, List.drop_one, List.tail_cons,
      List.reverse_reverse]
  · have hmem : a ∈ y := List.mem_reverse.mp ha
    have hne : a ≠ '.' := fun hcontra => hy (hcontra ▸ hmem)
    simp [hne]

theorem splitUnd_no_underscore :
    ∀ {l : List Char}, '_' ∉ l → splitUnd l = [l] := by
  intro l
  induction l with
  | nil => intro _; rfl
  | cons c cs ih =>
    intro h
    have hcs : '_' ∉ cs := fun hc => h (List.mem_cons_of_mem _ hc)
    have hc : c ≠ '_' := fun hc => h (hc ▸ List.mem_cons_self _ _)
    rw [splitUnd, ih hcs]
    simp [hc]

theorem splitUnd_append_sep {ts : List Char} (hts : '_' ∉ ts) :
    ∀ x : List Char, splitUnd (x ++ '_' :: ts) = splitUnd x ++ [ts] := by
  intro x
  induction x with
  | nil =>
    rw [List.nil_append]
    simp [splitUnd, splitUnd_no_underscore hts]
  | cons c cs ih =>
    rw [List.cons_append]
    simp only [splitUnd]
    rw [ih]
    rcases hshape : splitUnd cs with - | ⟨t, ts'⟩
    · exact absurd hshape (splitUnd_ne_nil cs)
    · rw [List.cons_append]
      by_cases hc : c = '_'
      · simp [hc]
      · simp [hc]

theorem joinUnd_splitUnd : ∀ l : List Char, joinUnd (splitUnd l) = l := by
  intro l
  induction l with
  | nil => rfl
  | cons c cs ih =>
    rw [splitUnd]
    rcases hshape : splitUnd cs with - | ⟨t, ts⟩
    · exact absurd hshape (splitUnd_ne_nil cs)
    · rw [hshape] at ih
      by_cases hc : c = '_'
      · subst hc
        show joinUnd ([] :: t :: ts) = '_' :: cs
        show '_' :: joinUnd (t :: ts) = '_' :: cs
        rw [ih]
      · show joinUnd (if c = '_' then [] :: t :: ts else (c :: t) :: ts) = c :: cs
        rw [if_neg hc]
        cases ts with
        | nil =>
          have h2 : t = cs := ih
          show c :: t = c :: cs
          rw [h2]
        | cons u us =>
          show (c :: t) ++ '_' :: joinUnd (u :: us) = c :: cs
          rw [List.cons_append]
          have h2 : t ++ '_' :: joinUnd (u :: us) = cs := ih
          rw [h2]

theorem find?_append_all_false {f : List Char → Bool} :
    ∀ {A B : List (List Char)}, (∀ p ∈ A, f p = false) →
      (A ++ B).find? f = B.find? f := by
  intro A
  induction A with
  | nil => intro B _; rfl
  | cons a as ih =>
    intro B hall
    rw [List.cons_append, List.find?_cons_of_neg _ (by
      rw [hall a (List.mem_cons_self _ _)]; exact Bool.false_ne_true)]
    exact ih fun p hp => hall p (List.mem_cons_of_mem _ hp)

theorem firstIdx14_none :
    ∀ {A : List (List Char)}, (∀ p ∈ A, is14Digits p = false) →
      firstIdx14 A = none := by
  intro A
  induction A with
  | nil => intro _; rfl
  | cons a as ih =>
    intro hall
    rw [firstIdx14, if_neg (by
      rw [hall a (List.mem_cons_self _ _)]; exact Bool.false_ne_true),
      ih fun p hp => hall p (List.mem_cons_of_mem _ hp)]
    rfl

theorem firstIdx14_append {ts : List Char} (hts : is14Digits ts = true) :
    ∀ {A : List (List Char)}, (∀ p ∈ A, is14Digits p = false) →
      firstIdx14 (A ++ [ts]) = some A.length := by
  intro A
  induction A with
  | nil => intro _; rw [List.nil_append, firstIdx14, if_pos hts]; rfl
  | cons a as ih =>
    intro hall
    rw [List.cons_append, firstIdx14, if_neg (by
      rw [hall a (List.mem_cons_self _ _)]; exact Bool.false_ne_true),
      ih fun p hp => hall p (List.mem_cons_of_mem _ hp)]
    rfl

theorem joinUnd_dropLast_getLast :
    ∀ parts : List (List Char), 2 ≤ parts.length →
      joinUnd parts.dropLast ++ '_' :: parts.getLastD [] = joinUnd parts := by
  intro parts
  induction parts with
  | nil => intro h; simp at h
  | cons p ps ih =>
    intro hlen
    cases ps with
    | nil => simp at hlen
    | cons q qs =>
      cases qs with
      | nil => rfl
      | cons r rs =>
        have ihh := ih (by simp)
        show (p ++ '_' :: joinUnd ((q :: r :: rs).dropLast))
            ++ '_' :: (q :: r :: rs).getLastD [] = p ++ '_' :: joinUnd (q :: r :: rs)
        rw [List.append_assoc, List.cons_append, ihh]

/-- C4 (amended).  When no underscore-separated token of the deployment id is
itself a 14-digit string, the codec round-trips: parsing
`dep ++ "_" ++ ts ++ ".JPG"` returns exactly the 14-digit timestamp `ts` and
the deployment id `dep` (which may contain any number of underscores). -/
theorem c4_codec_roundtrip (dep ts : List Char)
    (hlen : ts.length = 14) (hdig : ∀ c ∈ ts, isDigitChar c = true)
    (hdep : ∀ p ∈ splitUnd dep, is14Digits p = false) :
    extract_timestamp (dep ++ '_' :: (ts ++ '.' :: ['J', 'P', 'G'])) = ts
    ∧ extract_deployment_id (dep ++ '_' :: (ts ++ '.' :: ['J', 'P', 'G'])) = dep := by
  have hassoc : dep ++ '_' :: (ts ++ '.' :: ['J', 'P', 'G'])
      = (dep ++ '_' :: ts) ++ '.' :: ['J', 'P', 'G'] := by
    simp [List.append_assoc]
  have hstrip : stripExt (dep ++ '_' :: (ts ++ '.' :: ['J', 'P', 'G']))
      = dep ++ '_' :: ts := by
    rw [hassoc]
    exact stripExt_append (by decide)
  have hund : '_' ∉ ts := by
    intro hmem
    exact absurd (hdig '_' hmem) (by decide)
  have h14 : is14Digits ts = true := by
    unfold is14Digits
    rw [hlen]
    simp only [beq_self_eq_true, Bool.true_and, List.all_eq_true]
    exact hdig
  have hsplit : splitUnd (dep ++ '_' :: ts) = splitUnd dep ++ [ts] :=
    splitUnd_append_sep hund dep
  constructor
  · unfold extract_timestamp
    rw [hstrip, hsplit, find?_append_all_false hdep,
      List.find?_cons_of_pos _ h14]
  · unfold extract_deployment_id
    rw [hstrip, hsplit, firstIdx14_append h14 hdep]
    show joinUnd ((splitUnd dep ++ [ts]).take (splitUnd dep).length) = dep
    rw [List.take_left]
    exact joinUnd_splitUnd dep

/-- C4 counterexample: a deployment id that is itself a 14-digit string.  The
parser takes the deployment id as the timestamp and returns an empty
deployment id, so the round trip fails for this filename. -/
theorem c4_counterexample :
    extract_timestamp ("20230101000000_20240102030405.JPG".data)
        ≠ "20240102030405".data
      ∧ extract_deployment_id ("20230101000000_20240102030405.JPG".data)
        ≠ "20230101000000".data
      ∧ extract_timestamp ("20230101000000_20240102030405.JPG".data)
        = "20230101000000".data
      ∧ extract_deployment_id ("20230101000000_20240102030405.JPG".data) = [] := by
  refine ⟨by decide, by decide, by decide, by decide⟩

/-- C4 witness: the source's own example `SLC6_1_20240105142001.JPG`, whose
deployment id contains an internal underscore. -/
theorem c4_witness :
    extract_timestamp ("SLC6_1".data ++ '_' :: ("20240105142001".data
        ++ '.' :: ['J', 'P', 'G'])) = "20240105142001".data
      ∧ extract_deployment_id ("SLC6_1".data ++ '_' :: ("20240105142001".data
        ++ '.' :: ['J', 'P', 'G'])) = "SLC6_1".data :=
  c4_codec_roundtrip _ _ (by decide) (by decide) (by decide)

/-- C5 (amended).  When no underscore-separated token of the stripped
filename is a 14-digit string, the codec does not fail: `extract_timestamp`
returns the last token, `extract_deployment_id` the underscore-join of the
remaining tokens, and (when at least two tokens exist) the two results
reassemble to the stripped filename. -/
theorem c5_fallback_no_error (filename : List Char)
    (h : ∀ p ∈ splitUnd (stripExt filename), is14Digits p = false) :
    extract_timestamp filename = (splitUnd (stripExt filename)).getLastD []
      ∧ extract_deployment_id filename = joinUnd (splitUnd (stripExt filename)).dropLast
      ∧ (2 ≤ (splitUnd (stripExt filename)).length →
          joinUnd (splitUnd (stripExt filename)).dropLast
            ++ '_' :: (splitUnd (stripExt filename)).getLastD [] = stripExt filename) := by
  have hfind : (splitUnd (stripExt filename)).find? is14Digits = none :=
    List.find?_eq_none.mpr fun p hp => by
      rw [h p hp]; exact Bool.false_ne_true
  have hidx : firstIdx14 (splitUnd (stripExt filename)) = none := firstIdx14_none h
  refine ⟨?_, ?_, ?_⟩
  · unfold extract_timestamp
    rw [hfind]
  · unfold extract_deployment_id
    rw [hidx]
  · intro hlen
    rw [joinUnd_dropLast_getLast _ hlen]
    exact joinUnd_splitUnd _

/-- C5 counterexample: on `ABC_12.JPG` no 14-digit token exists, yet the
codec returns values (the fallback), rather than failing with a parse
error. -/
theorem c5_counterexample :
    extract_timestamp ("ABC_12.JPG".data) = "12".data
      ∧ extract_deployment_id ("ABC_12.JPG".data) = "ABC".data := by
  refine ⟨by decide, by decide⟩

/-- C5 witness at `ABC_12.JPG`. -/
theorem c5_witness :
    (∀ p ∈ splitUnd (stripExt ("ABC_12.JPG".data)), is14Digits p = false)
      ∧ (extract_timestamp ("ABC_12.JPG".data)
            = (splitUnd (stripExt ("ABC_12.JPG".data))).getLastD []
        ∧ extract_deployment_id ("ABC_12.JPG".data)
            = joinUnd (splitUnd (stripExt ("ABC_12.JPG".data))).dropLast
        ∧ (2 ≤ (splitUnd (stripExt ("ABC_12.JPG".data))).length →
            joinUnd (splitUnd (stripExt ("ABC_12.JPG".data))).dropLast
              ++ '_' :: (splitUnd (stripExt ("ABC_12.JPG".data))).getLastD []
              = stripExt ("ABC_12.JPG".data))) :=
  ⟨by decide, c5_fallback_no_error ("ABC_12.JPG".data) (by decide)⟩

/-- Python `re` whitespace class `\s`. -/
def isWsChar (c : Char) : Bool :=
  c = ' ' || c = '\t' || c = '\n' || c = '\r' || c = Char.ofNat 11 || c = Char.ofNat 12

/-- ASCII letter. -/
def isAlphaChar (c : Char) : Bool := ('a' ≤ c && c ≤ 'z') || ('A' ≤ c && c ≤ 'Z')

/-- Word class `\w`. -/
def isWordChar (c : Char) : Bool := isAlphaChar c || isDigitChar c || c = '_'

/-- The degree-glyph class of the patterns: degree sign, apostrophe
(code 39), middle dot. -/
def isGlyphChar (c : Char) : Bool := c = '°' || c = Char.ofNat 39 || c = '·'

/-- `C` under `re.IGNORECASE`. -/
def isCChar (c : Char) : Bool := c = 'C' || c = 'c'

/-- `F` under `re.IGNORECASE`. -/
def isFChar (c : Char) : Bool := c = 'F' || c = 'f'

/-- `T` under `re.IGNORECASE`. -/
def isTChar (c : Char) : Bool := c = 'T' || c = 't'

/-- Match of pattern 1 `(\d+)\s*[°'·]?\s*C` anchored at the head of the list:
the digit group together with the remainder after the C.  Consecutive regex
pieces draw from disjoint character classes, so greedy (maximal-munch)
matching is complete and no backtracking is required. -/
def p1Core (l : List Char) : Option (List Char × List Char) :=
  if (l.takeWhile isDigitChar).isEmpty then none
  else
    match (match (l.dropWhile isDigitChar).dropWhile isWsChar with
           | c :: t =>
             if isGlyphChar c then t
             else (l.dropWhile isDigitChar).dropWhile isWsChar
           | [] => []).dropWhile isWsChar with
    | c :: t => if isCChar c then some (l.takeWhile isDigitChar, t) else none
    | [] => none

/-- The digit group of an anchored pattern-1 match. -/
def p1At (l : List Char) : Option (List Char) := (p1Core l).map fun p => p.1

/-- Anchored match of pattern 2 `T\s+(\d+)\s*[°'·]?\s*C`: a `T`, at least one
whitespace, then the body of pattern 1. -/
def p2At (l : List Char) : Option (List Char) :=
  match l with
  | [] => none
  | c :: r =>
    if isTChar c then
      if (r.takeWhile isWsChar).isEmpty then none
      else p1At (r.dropWhile isWsChar)
    else none

/-- Anchored match of pattern 3
`(\d+)\s*[°'·]?\s*C\s*/\s*\d+\s*[°'·]?\s*F`: the body of pattern 1 followed
by a slash and a Fahrenheit readout; only the Celsius group is returned. -/
def p3At (l : List Char) : Option (List Char) :=
  match p1Core l with
  | none => none
  | some (ds, rest) =>
    match rest.dropWhile isWsChar with
    | c :: r2 =>
      if c = '/' then
        if ((r2.dropWhile isWsChar).takeWhile isDigitChar).isEmpty then none
        else
          match (match ((r2.dropWhile isWsChar).dropWhile isDigitChar).dropWhile isWsChar with
                 | c' :: t' =>
                   if isGlyphChar c' then t'
                   else ((r2.dropWhile isWsChar).dropWhile isDigitChar).dropWhile isWsChar
                 | [] => []).dropWhile isWsChar with
          | c' :: _ => if isFChar c' then some ds else none
          | [] => none
      else none
    | [] => none

/-- Anchored match of pattern 4 `(\d+)\s*[^\w\s]*\s*C(?:\s|/|\s*\d)`: digits,
optional whitespace, any run of symbol characters, optional whitespace, a C,
and then one more character that is whitespace, a slash, or a digit (a
following whitespace satisfies the first alternative, a following digit the
third with an empty `\s*`). -/
def p4At (l : List Char) : Option (List Char) :=
  if (l.takeWhile isDigitChar).isEmpty then none
  else
    match ((((l.dropWhile isDigitChar).dropWhile isWsChar).dropWhile
        fun c => !isWordChar c && !isWsChar c).dropWhile isWsChar) with
    | c :: t =>
      if isCChar c then
        match t with
        | c2 :: _ =>
          if isWsChar c2 || c2 = '/' || isDigitChar c2 then
            some (l.takeWhile isDigitChar)
          else none
        | [] => none
      else none
    | [] => none

/-- `re.search`: try the anchored matcher at every start position, leftmost
first. -/
def searchWith (pAt : List Char → Option (List Char)) : List Char → Option (List Char)
  | [] => none
  | c :: cs =>
    match pAt (c :: cs) with
    | some v => some v
    | none => searchWith pAt cs

/-- `parse_temperature_from_results` (lines 216-253 of `extract_temp.py`):
for each OCR detection in order, try the four patterns in order on its text;
the first match anywhere wins and returns that detection's confidence. -/
def parse_temperature_from_results : List (List Char × ℚ) → Option (List Char × ℚ)
  | [] => none
  | d :: rest =>
    match searchWith p1At d.1 with
    | some v => some (v, d.2)
    | none =>
      match searchWith p2At d.1 with
      | some v => some (v, d.2)
      | none =>
        match searchWith p3At d.1 with
        | some v => some (v, d.2)
        | none =>
          match searchWith p4At d.1 with
          | some v => some (v, d.2)
          | none => parse_temperature_from_results rest

/-- The same parser with patterns 2 and 3 deleted. -/
def parse_without_dual_patterns : List (List Char × ℚ) → Option (List Char × ℚ)
  | [] => none
  | d :: rest =>
    match searchWith p1At d.1 with
    | some v => some (v, d.2)
    | none =>
      match searchWith p4At d.1 with
      | some v => some (v, d.2)
      | none => parse_without_dual_patterns rest

/-- Per-detection pattern cascade: the value the parser extracts from one
detection's text. -/
def parseDetection (text : List Char) : Option (List Char) :=
  match searchWith p1At text with
  | some v => some v
  | none =>
    match searchWith p2At text with
    | some v => some v
    | none =>
      match searchWith p3At text with
      | some v => some v
      | none => searchWith p4At text

/-- Modelled from the spec claim's reading of the selection rule: scan all
detections for a pattern-1 match first, then all for pattern 2, then 3,
then 4 (pattern-major order).  Used only to refute that reading. -/
def firstMatchWith (pAt : List Char → Option (List Char)) :
    List (List Char × ℚ) → Option (List Char × ℚ)
  | [] => none
  | d :: rest =>
    match searchWith pAt d.1 with
    | some v => some (v, d.2)
    | none => firstMatchWith pAt rest

/-- Pattern-major selection over all detections (the claim's reading). -/
def parseByPatternOrder (results : List (List Char × ℚ)) : Option (List Char × ℚ) :=
  match firstMatchWith p1At results with
  | some r => some r
  | none =>
    match firstMatchWith p2At results with
    | some r => some r
    | none =>
      match firstMatchWith p3At results with
      | some r => some r
      | none => firstMatchWith p4At results

/-- `extract_temperature` (lines 192-213): run the strategies in order; an
empty OCR result is skipped, the first strategy whose detections yield a
parse returns immediately. -/
def extract_temperature : List (List (List Char × ℚ)) → Option (List Char × ℚ)
  | [] => none
  | res :: rest =>
    if res.isEmpty then extract_temperature rest
    else
      match parse_temperature_from_results res with
      | some r => some r
      | none => extract_temperature rest

theorem searchWith_suffix {pAt : List Char → Option (List Char)}
    (hnil : pAt [] = none) :
    ∀ pre l : List Char, (pAt l).isSome = true →
      (searchWith pAt (pre ++ l)).isSome = true := by
  intro pre
  induction pre with
  | nil =>
    intro l hl
    cases l with
    | nil => rw [hnil] at hl; cases hl
    | cons c cs =>
      rw [List.nil_append]
      simp only [searchWith]
      cases hp : pAt (c :: cs) with
      | some v => rfl
      | none => rw [hp] at hl; cases hl
  | cons a pre ih =>
    intro l hl
    rw [List.cons_append]
    simp only [searchWith]
    cases hp : pAt (a :: (pre ++ l)) with
    | some v => rfl
    | none => exact ih l hl

theorem searchWith_cons_of_tail {pAt : List Char → Option (List Char)}
    {c : Char} {cs : List Char} (h : (searchWith pAt cs).isSome = true) :
    (searchWith pAt (c :: cs)).isSome = true := by
  simp only [searchWith]
  cases hp : pAt (c :: cs) with
  | some v => rfl
  | none => exact h

theorem searchWith_p2_imp_p1 :
    ∀ text : List Char, (searchWith p2At text).isSome = true →
      (searchWith p1At text).isSome = true := by
  intro text
  induction text with
  | nil => intro h; exact absurd h (by decide)
  | cons c cs ih =>
    intro h
    simp only [searchWith] at h
    cases hp : p2At (c :: cs) with
    | some v =>
      have hp2 : (if isTChar c = true then
            if (cs.takeWhile isWsChar).isEmpty = true then none
            else p1At (cs.dropWhile isWsChar)
          else none) = some v := hp
      by_cases hT : isTChar c = true
      · rw [if_pos hT] at hp2
        by_cases hws : (cs.takeWhile isWsChar).isEmpty = true
        · rw [if_pos hws] at hp2; cases hp2
        · rw [if_neg hws] at hp2
          have hsfx : (p1At (cs.dropWhile isWsChar)).isSome = true := by
            rw [hp2]; rfl
          have hdecomp : c :: cs
              = (c :: cs.takeWhile isWsChar) ++ cs.dropWhile isWsChar := by
            rw [List.cons_append, List.takeWhile_append_dropWhile]
          rw [hdecomp]
          exact searchWith_suffix rfl _ _ hsfx
      · rw [if_neg hT] at hp2; cases hp2
    | none =>
      rw [hp] at h
      exact searchWith_cons_of_tail (ih h)

theorem p3At_imp_p1At {l : List Char} (h : (p3At l).isSome = true) :
    (p1At l).isSome = true := by
  unfold p3At at h
  unfold p1At
  cases hc : p1Core l with
  | none => rw [hc] at h; cases h
  | some p => rfl

theorem searchWith_p3_imp_p1 :
    ∀ text : List Char, (searchWith p3At text).isSome = true →
      (searchWith p1At text).isSome = true := by
  intro text
  induction text with
  | nil => intro h; exact absurd h (by decide)
  | cons c cs ih =>
    intro h
    simp only [searchWith] at h
    cases hp : p3At (c :: cs) with
    | some v =>
      have h1 : (p1At (c :: cs)).isSome = true := p3At_imp_p1At (by rw [hp]; rfl)
      simp only [searchWith]
      cases hq : p1At (c :: cs) with
      | some w => rfl
      | none => rw [hq] at h1; cases h1
    | none =>
      rw [hp] at h
      exact searchWith_cons_of_tail (ih h)

/-- C10: patterns 2 and 3 are unreachable.  Wherever pattern 2 (`T\s+` prefix)
or pattern 3 (the `C/F` dual readout) matches a text, pattern 1 also matches
that text and is tried first on the same detection, so the parser equals the
variant with patterns 2 and 3 deleted, on every list of detections. -/
theorem c10_patterns_2_3_unreachable :
    (∀ text : List Char, (searchWith p2At text).isSome = true →
       (searchWith p1At text).isSome = true) ∧
    (∀ text : List Char, (searchWith p3At text).isSome = true →
       (searchWith p1At text).isSome = true) ∧
    (∀ results : List (List Char × ℚ),
       parse_temperature_from_results results = parse_without_dual_patterns results) := by
  refine ⟨searchWith_p2_imp_p1, searchWith_p3_imp_p1, ?_⟩
  intro results
  induction results with
  | nil => rfl
  | cons d rest ih =>
    cases hp1 : searchWith p1At d.1 with
    | some v =>
      show (match searchWith p1At d.1 with
            | some v => some (v, d.2)
            | none =>
              match searchWith p2At d.1 with
              | some v => some (v, d.2)
              | none =>
                match searchWith p3At d.1 with
                | some v => some (v, d.2)
                | none =>
                  match searchWith p4At d.1 with
                  | some v => some (v, d.2)
                  | none => parse_temperature_from_results rest)
          = match searchWith p1At d.1 with
            | some v => some (v, d.2)
            | none =>
              match searchWith p4At d.1 with
              | some v => some (v, d.2)
              | none => parse_without_dual_patterns rest
      rw [hp1]
    | none =>
      have h2 : searchWith p2At d.1 = none := by
        cases h2x : searchWith p2At d.1 with
        | none => rfl
        | some w =>
          have hs := searchWith_p2_imp_p1 d.1 (by rw [h2x]; rfl)
          rw [hp1] at hs; cases hs
      have h3 : searchWith p3At d.1 = none := by
        cases h3x : searchWith p3At d.1 with
        | none => rfl
        | some w =>
          have hs := searchWith_p3_imp_p1 d.1 (by rw [h3x]; rfl)
          rw [hp1] at hs; cases hs
      show (match searchWith p1At d.1 with
            | some v => some (v, d.2)
            | none =>
              match searchWith p2At d.1 with
              | some v => some (v, d.2)
              | none =>
                match searchWith p3At d.1 with
                | some v => some (v, d.2)
                | none =>
                  match searchWith p4At d.1 with
                  | some v => some (v, d.2)
                  | none => parse_temperature_from_results rest)
          = match searchWith p1At d.1 with
            | some v => some (v, d.2)
            | none =>
              match searchWith p4At d.1 with
              | some v => some (v, d.2)
              | none => parse_without_dual_patterns rest
      rw [hp1, h2, h3]
      cases hp4 : searchWith p4At d.1 with
      | some w => rfl
      | none => exact ih

theorem c10_witness :
    (searchWith p1At ("T 12 C".data)).isSome = true ∧
    parse_temperature_from_results [("12~C ".data, mkRat 9 10)] =
      parse_without_dual_patterns [("12~C ".data, mkRat 9 10)] :=
  ⟨c10_patterns_2_3_unreachable.1 ("T 12 C".data) (by decide),
   c10_patterns_2_3_unreachable.2.2 [("12~C ".data, mkRat 9 10)]⟩

theorem parse_cons_eq (d : List Char × ℚ) (rest : List (List Char × ℚ)) :
    parse_temperature_from_results (d :: rest) =
      match parseDetection d.1 with
      | some v => some (v, d.2)
      | none => parse_temperature_from_results rest := by
  show (match searchWith p1At d.1 with
        | some v => some (v, d.2)
        | none =>
          match searchWith p2At d.1 with
          | some v => some (v, d.2)
          | none =>
            match searchWith p3At d.1 with
            | some v => some (v, d.2)
            | none =>
              match searchWith p4At d.1 with
              | some v => some (v, d.2)
              | none => parse_temperature_from_results rest)
      = _
  simp only [parseDetection]
  cases searchWith p1At d.1 <;> cases searchWith p2At d.1 <;>
    cases searchWith p3At d.1 <;> cases searchWith p4At d.1 <;> rfl

/-- C6 counterexample: with two detections, the first matching only pattern 4
(`12~C `) and the second matching pattern 1 (`34°C`), the parser returns the
first detection's pattern-4 value, whereas selecting the first match in
pattern-list order across all detections would return the second detection's
pattern-1 value.  The parser is detection-major, not pattern-major. -/
theorem c6_counterexample :
    parse_temperature_from_results
        [("12~C ".data, mkRat 9 10), (("34".data ++ [Char.ofNat 176] ++ "C".data), mkRat 8 10)]
      = some ("12".data, mkRat 9 10) ∧
    parseByPatternOrder
        [("12~C ".data, mkRat 9 10), (("34".data ++ [Char.ofNat 176] ++ "C".data), mkRat 8 10)]
      = some ("34".data, mkRat 8 10) := by
  constructor <;> decide

/-- C6 (amended): the parser is detection-major: its result is determined by
the FIRST detection on which any of the four patterns matches, returning that
detection's pattern-cascade value (patterns tried 1, 2, 3, 4 within the
detection); and the strategy ladder returns immediately once one strategy's
detections yield a parse, attempting no further strategy. -/
theorem c6_detection_major_first_match :
    (∀ results : List (List Char × ℚ),
       parse_temperature_from_results results =
         (results.find? fun x => (parseDetection x.1).isSome).bind
           fun x => (parseDetection x.1).map fun v => (v, x.2)) ∧
    (∀ (res : List (List Char × ℚ)) (rest : List (List (List Char × ℚ)))
       (r : List Char × ℚ),
       parse_temperature_from_results res = some r →
       extract_temperature (res :: rest) = some r) := by
  constructor
  · intro results
    induction results with
    | nil => rfl
    | cons d rest ih =>
      rw [parse_cons_eq]
      cases hpd : parseDetection d.1 with
      | some v =>
        rw [List.find?_cons]
        simp only [hpd, Option.isSome_some, Option.some_bind, Option.map_some']
      | none =>
        rw [List.find?_cons]
        simp only [hpd, Option.isSome_none]
        exact ih
  · intro res rest r hp
    cases res with
    | nil => cases hp
    | cons d ds =>
      show (if (d :: ds).isEmpty = true then extract_temperature rest
            else
              match parse_temperature_from_results (d :: ds) with
              | some r => some r
              | none => extract_temperature rest)
          = some r
      rw [if_neg (by simp), hp]

theorem c6_witness :
    extract_temperature
        [[(("34".data ++ [Char.ofNat 176] ++ "C".data), mkRat 8 10)], [("99".data, 1)]]
      = some ("34".data, mkRat 8 10) :=
  c6_detection_major_first_match.2
    [(("34".data ++ [Char.ofNat 176] ++ "C".data), mkRat 8 10)]
    [[("99".data, 1)]] ("34".data, mkRat 8 10) (by decide)
